import Mathlib

/-!
HashSet.hpp: a separately-chained hash set.

A shallow embedding of `src/HashSet.hpp` and a verification of its specification.

Modelling conventions.

* A chain (`Node*`, a singly linked list of `Node{value, next}`) is a `List α`
  whose head is the first node; `nullptr` is `[]`; `new Node{v, head}` is `v :: head`.
* The bucket array `Node** _list` is a `List (List α)`: the cells that were
  allocated.  A null array is the array without cells.  Reading or writing a
  cell that was not allocated is undefined behaviour in C++; the embedding
  returns `none` there, and so does a `%` whose right operand is zero.
* `_sz`, `_cap`, indices and hash values are natural numbers.  The C++ types are
  32-bit; the arithmetic of the source (`_cap * 2 + 1`, `++_sz`) is exact while
  the capacity stays below `2^31`, which it does for fewer than about `8 * 10^8`
  stored elements.
* The test `(_sz * 1.0) / _cap > .8` compares the correctly rounded quotient with
  the double nearest to `4/5`.  Rounding is monotone, so the test is false
  whenever `5 * _sz ≤ 4 * _cap`; when `5 * _sz > 4 * _cap` the quotient exceeds
  `4/5` by at least `1 / (5 * _cap) > 2^-34`, far more than the spacing of
  doubles near `0.8`, so the test is true.  The embedding therefore uses
  `5 * _sz > 4 * _cap`.
* `operator==` on elements is decidable equality.
-/

namespace HashSetHpp

/-- The class `HashSet<ElementType>`: its four data members. -/
structure HashSet (α : Type) where
  hashFunction : α → Nat
  _sz : Nat
  _cap : Nat
  _list : List (List α)

variable {α : Type}

/-- The constant `DEFAULT_CAPACITY`. -/
def DEFAULT_CAPACITY : Nat := 10

/-- The function `impl_::HashSet__undefinedHashFunction`. -/
def HashSet__undefinedHashFunction (_element : α) : Nat := 0

/-- The function `null_init_list`, applied to a freshly allocated array of `size` cells. -/
def null_init_list (size : Nat) : List (List α) := List.replicate size []

/-- The constructor `HashSet(HashFunction)`. -/
def HashSet.new (hashFunction : α → Nat) : HashSet α :=
  { hashFunction := hashFunction
    _sz := 0
    _cap := DEFAULT_CAPACITY
    _list := null_init_list DEFAULT_CAPACITY }

/-- The member `capacity()`. -/
def HashSet.capacity (s : HashSet α) : Nat := s._cap

/-- The member `size()`. -/
def HashSet.size (s : HashSet α) : Nat := s._sz

/-- The `while (cur != nullptr)` loop of `elementsAtIndex`, with its counter `num`. -/
def countChain : List α → Nat → Nat
  | [], num => num
  | _ :: next, num => countChain next (num + 1)

/-- The member `elementsAtIndex(index)`. -/
def HashSet.elementsAtIndex (s : HashSet α) (index : Nat) : Option Nat :=
  if index ≥ s._cap then some 0
  else
    match s._list[index]? with
    | none => none
    | some cur => some (countChain cur 0)

/-- The `while (cur != nullptr)` loop of `isElementAtIndex`. -/
def scanChain [DecidableEq α] (element : α) : List α → Bool
  | [] => false
  | value :: next => if value = element then true else scanChain element next

/-- The member `isElementAtIndex(element, index)`: it reads `_list[index]`
without comparing `index` with `_cap`. -/
def HashSet.isElementAtIndex [DecidableEq α] (s : HashSet α) (element : α) (index : Nat) :
    Option Bool :=
  match s._list[index]? with
  | none => none
  | some cur => some (scanChain element cur)

/-- The member `contains(element)`. -/
def HashSet.contains [DecidableEq α] (s : HashSet α) (element : α) : Option Bool :=
  if s._cap = 0 then none
  else s.isElementAtIndex element (s.hashFunction element % s._cap)

/-- The inner `while (cur != nullptr)` loop of `resize`: every node of the old
chain is copied to the front of its chain in `newList`. -/
def resizeChain (hashFunction : α → Nat) (newCap : Nat) :
    List α → List (List α) → Option (List (List α))
  | [], newList => some newList
  | value :: next, newList =>
    if newCap = 0 then none
    else
      match newList[hashFunction value % newCap]? with
      | none => none
      | some head =>
        resizeChain hashFunction newCap next
          (newList.set (hashFunction value % newCap) (value :: head))

/-- The outer loop `for (int i = 0; i < _cap; ++i)` of `resize`: `n` iterations
are left and the next one reads `_list[i]`. -/
def resizeLoop (hashFunction : α → Nat) (list : List (List α)) (newCap : Nat) :
    Nat → Nat → List (List α) → Option (List (List α))
  | 0, _, newList => some newList
  | n + 1, i, newList =>
    match list[i]? with
    | none => none
    | some cur =>
      match resizeChain hashFunction newCap cur newList with
      | none => none
      | some newList1 => resizeLoop hashFunction list newCap n (i + 1) newList1

/-- The member `resize()`. -/
def HashSet.resize (s : HashSet α) : Option (HashSet α) :=
  let newCap := s._cap * 2 + 1
  match resizeLoop s.hashFunction s._list newCap s._cap 0 (null_init_list newCap) with
  | none => none
  | some newList => some { s with _list := newList, _cap := newCap }

/-- The member `add(element)`. -/
def HashSet.add [DecidableEq α] (s : HashSet α) (element : α) : Option (HashSet α) :=
  match s.contains element with
  | none => none
  | some true => some s
  | some false =>
    let s1 : HashSet α := { s with _sz := s._sz + 1 }
    match (if 5 * s1._sz > 4 * s1._cap then s1.resize else some s1) with
    | none => none
    | some s2 =>
      if s2._cap = 0 then none
      else
        match s2._list[s2.hashFunction element % s2._cap]? with
        | none => none
        | some head =>
          some { s2 with
            _list := s2._list.set (s2.hashFunction element % s2._cap) (element :: head) }

/-- A client that calls `add` on the elements of `xs`, first to last. -/
def HashSet.addAll [DecidableEq α] (s : HashSet α) : List α → Option (HashSet α)
  | [] => some s
  | x :: xs =>
    match s.add x with
    | none => none
    | some s1 => HashSet.addAll s1 xs

/-- The expression `new Node*[n]`: an array of `n` cells.  Their contents are
indeterminate until they are written; the embedding starts them empty, and
`copyLoop_spec` shows that the result of `copy_list` does not depend on them. -/
def newArray (n : Nat) : List (List α) := List.replicate n []

/-- The `while (curNode != nullptr)` loop of `copy_list`: the copies of the nodes
after the first one, linked in the order of the source chain. -/
def copyTail : List α → List α
  | [] => []
  | value :: next => value :: copyTail next

/-- The body of the `for` loop of `copy_list` for one source chain: `nullptr` for
an empty chain, otherwise a copy of the first node followed by `copyTail`. -/
def copyCell : List α → List α
  | [] => []
  | value :: next => value :: copyTail next

/-- The loop `for (int i = 0; i < _cap; ++i)` of `copy_list`: `n` iterations are
left, the next one reads `list[i]` and writes the cell `i` of the own array. -/
def copyLoop (list : List (List α)) : Nat → Nat → List (List α) → Option (List (List α))
  | 0, _, own => some own
  | n + 1, i, own =>
    match list[i]? with
    | none => none
    | some curNode =>
      if i < own.length then copyLoop list n (i + 1) (own.set i (copyCell curNode))
      else none

/-- The member `copy_list(list)`. -/
def HashSet.copy_list (s : HashSet α) (list : List (List α)) : Option (HashSet α) :=
  match copyLoop list s._cap 0 s._list with
  | none => none
  | some own => some { s with _list := own }

/-- The loop `for (int i = 0; i < _cap; ++i)` of `delete_list`: it reads
`_list[i]` and releases the nodes of that chain. -/
def deleteLoop (list : List (List α)) : Nat → Nat → Option Unit
  | 0, _ => some ()
  | n + 1, i =>
    match list[i]? with
    | none => none
    | some _ => deleteLoop list n (i + 1)

/-- The member `delete_list()`: it releases storage and changes no member. -/
def HashSet.delete_list (s : HashSet α) : Option Unit :=
  deleteLoop s._list s._cap 0

/-- The copy constructor `HashSet(const HashSet& s)`: the new object. -/
def HashSet.copyConstruct (s : HashSet α) : Option (HashSet α) :=
  HashSet.copy_list
    { hashFunction := s.hashFunction, _sz := s._sz, _cap := s._cap, _list := newArray s._cap }
    s._list

/-- The copy assignment `operator=(const HashSet& s)` on the object `self`, for a
source `s` that is another object: the assigned object. -/
def HashSet.copyAssign (self s : HashSet α) : Option (HashSet α) :=
  match self.delete_list with
  | none => none
  | some _ =>
    HashSet.copy_list
      { hashFunction := s.hashFunction, _sz := s._sz, _cap := s._cap,
        _list := newArray s._cap }
      s._list

/-- The move constructor `HashSet(HashSet&& s)`: the pair of the new object and
of the source `s` after the call.  The new object starts with the placeholder
hash function, size 0, capacity 0 and a null array, then the four members are
swapped with those of `s`. -/
def HashSet.moveConstruct (s : HashSet α) : HashSet α × HashSet α :=
  let self : HashSet α :=
    { hashFunction := HashSet__undefinedHashFunction, _sz := 0, _cap := 0, _list := [] }
  let self1 : HashSet α := { self with _list := s._list }
  let s1 : HashSet α := { s with _list := self._list }
  let self2 : HashSet α := { self1 with _sz := s1._sz }
  let s2 : HashSet α := { s1 with _sz := self1._sz }
  let self3 : HashSet α := { self2 with _cap := s2._cap }
  let s3 : HashSet α := { s2 with _cap := self2._cap }
  let self4 : HashSet α := { self3 with hashFunction := s3.hashFunction }
  let s4 : HashSet α := { s3 with hashFunction := self3.hashFunction }
  (self4, s4)

/-- The move assignment `operator=(HashSet&& s)` on the object `self`: the pair
of the assigned object and of the source `s` after the call.  The four members
are swapped. -/
def HashSet.moveAssign (self s : HashSet α) : HashSet α × HashSet α :=
  let self1 : HashSet α := { self with _list := s._list }
  let s1 : HashSet α := { s with _list := self._list }
  let self2 : HashSet α := { self1 with _sz := s1._sz }
  let s2 : HashSet α := { s1 with _sz := self1._sz }
  let self3 : HashSet α := { self2 with _cap := s2._cap }
  let s3 : HashSet α := { s2 with _cap := self2._cap }
  let self4 : HashSet α := { self3 with hashFunction := s3.hashFunction }
  let s4 : HashSet α := { s3 with hashFunction := self3.hashFunction }
  (self4, s4)

/-- Every element of the bucket array `l` lies in the bucket its hash selects. -/
def Placed (hashFunction : α → Nat) (cap : Nat) (l : List (List α)) : Prop :=
  ∀ i c, l[i]? = some c → ∀ x ∈ c, hashFunction x % cap = i

/-- The class invariant of the data model, for a set whose hash function is `h`:
the array has `_cap` cells and at least the default capacity, every element is
in the bucket of its hash, `_sz` counts the nodes, no element occurs twice and
the load factor is at most `0.8`. -/
structure Inv (h : α → Nat) (s : HashSet α) : Prop where
  hash : s.hashFunction = h
  len : s._list.length = s._cap
  cap : DEFAULT_CAPACITY ≤ s._cap
  placed : Placed s.hashFunction s._cap s._list
  size : s._sz = s._list.flatten.length
  nodup : s._list.flatten.Nodup
  load : 5 * s._sz ≤ 4 * s._cap

/-- A set of capacity 3 with `h(x) = x`: bucket 1 holds 4 and 1, bucket 2 holds 2. -/
def sampleThree : HashSet Nat :=
  { hashFunction := fun x => x, _sz := 3, _cap := 3, _list := [[], [4, 1], [2]] }

/-- A set of capacity 2 with `h(x) = x`: bucket 0 holds 4 and 2, bucket 1 holds 1. -/
def sampleTwo : HashSet Nat :=
  { hashFunction := fun x => x, _sz := 3, _cap := 2, _list := [[4, 2], [1]] }

/-! ## The same members over an explicit free store

In the definitions above a chain is a value, so two sets can never share a
node.  To speak about sharing, the members that copy a set and that add to it
are embedded a second time over an explicit free store: nodes and bucket arrays
live at addresses, a `HashSet` object holds the address of its array, `new`
takes the next unused address and `delete` makes an address dead.  Reading or
writing a dead address is undefined behaviour and gives `none`.  The loops that
follow `next` pointers take a bound `fuel` on the number of nodes they may
visit and give `none` when it is used up.
-/

namespace Heap

/-- The struct `Node`; a pointer to a node is its address, `none` is `nullptr`. -/
structure Node (α : Type) where
  value : α
  next : Option Nat

/-- The free store: the live nodes, the live bucket arrays (each a list of
pointers to nodes) and the first address that `new` has not handed out yet. -/
structure Memory (α : Type) where
  nodes : Nat → Option (Node α)
  arrays : Nat → Option (List (Option Nat))
  brk : Nat

/-- The class `HashSet<ElementType>`, its member `_list` being the address of
the bucket array (`none` for `nullptr`). -/
structure HashSet (α : Type) where
  hashFunction : α → Nat
  _sz : Nat
  _cap : Nat
  _list : Option Nat

/-- The expression `new Node{value, next}`: the address and the store after it. -/
def Memory.newNode (m : Memory α) (nd : Node α) : Nat × Memory α :=
  (m.brk, { m with nodes := Function.update m.nodes m.brk (some nd), brk := m.brk + 1 })

/-- The expression `new Node*[n]`: the address and the store after it.  The cells
start as `nullptr`, which also stands for the call of `null_init_list` that
follows the allocation in `resize`; `copy_list` overwrites every cell. -/
def Memory.newArray (m : Memory α) (n : Nat) : Nat × Memory α :=
  (m.brk,
    { m with
      arrays := Function.update m.arrays m.brk (some (List.replicate n none)),
      brk := m.brk + 1 })

/-- The read `list[i]` of a cell of a bucket array. -/
def Memory.readCell (m : Memory α) (list : Option Nat) (i : Nat) : Option (Option Nat) :=
  match list with
  | none => none
  | some a =>
    match m.arrays a with
    | none => none
    | some cells => cells[i]?

/-- The write `list[i] = p` to a cell of a bucket array. -/
def Memory.writeCell (m : Memory α) (list : Option Nat) (i : Nat) (p : Option Nat) :
    Option (Memory α) :=
  match list with
  | none => none
  | some a =>
    match m.arrays a with
    | none => none
    | some cells =>
      if i < cells.length then
        some { m with arrays := Function.update m.arrays a (some (cells.set i p)) }
      else none

/-- The write `newNode->next = p`. -/
def Memory.writeNext (m : Memory α) (a : Nat) (p : Option Nat) : Option (Memory α) :=
  match m.nodes a with
  | none => none
  | some nd =>
    some { m with nodes := Function.update m.nodes a (some { nd with next := p }) }

/-- The statement `delete cur` on a node. -/
def Memory.deleteNode (m : Memory α) (a : Nat) : Option (Memory α) :=
  match m.nodes a with
  | none => none
  | some _ => some { m with nodes := Function.update m.nodes a none }

/-- The statement `delete[] _list` on a bucket array. -/
def Memory.deleteArray (m : Memory α) (a : Nat) : Option (Memory α) :=
  match m.arrays a with
  | none => none
  | some _ => some { m with arrays := Function.update m.arrays a none }

/-- The member `size()`. -/
def HashSet.size (s : HashSet α) : Nat := s._sz

/-- The `while (cur != nullptr)` loop of `isElementAtIndex`. -/
def scanFrom [DecidableEq α] (m : Memory α) (element : α) : Nat → Option Nat → Option Bool
  | _, none => some false
  | 0, some _ => none
  | fuel + 1, some a =>
    match m.nodes a with
    | none => none
    | some cur =>
      if cur.value = element then some true else scanFrom m element fuel cur.next

/-- The member `isElementAtIndex(element, index)`. -/
def HashSet.isElementAtIndex [DecidableEq α] (s : HashSet α) (fuel : Nat) (m : Memory α)
    (element : α) (index : Nat) : Option Bool :=
  match m.readCell s._list index with
  | none => none
  | some cur => scanFrom m element fuel cur

/-- The member `contains(element)`. -/
def HashSet.contains [DecidableEq α] (s : HashSet α) (fuel : Nat) (m : Memory α)
    (element : α) : Option Bool :=
  if s._cap = 0 then none
  else s.isElementAtIndex fuel m element (s.hashFunction element % s._cap)

/-- The `while (curNode != nullptr)` loop of `copy_list`: a copy of every
further node of the source chain is linked behind `newNode`. -/
def copyTail : Nat → Option Nat → Nat → Memory α → Option (Memory α)
  | _, none, _, m => some m
  | 0, some _, _, _ => none
  | fuel + 1, some a, newNode, m =>
    match m.nodes a with
    | none => none
    | some cur =>
      match (m.newNode { value := cur.value, next := none }).2.writeNext newNode
          (some (m.newNode { value := cur.value, next := none }).1) with
      | none => none
      | some m2 =>
        match m2.nodes a with
        | none => none
        | some cur2 => copyTail fuel cur2.next (m.newNode { value := cur.value, next := none }).1 m2

/-- The loop `for (int i = 0; i < _cap; ++i)` of `copy_list`; `own` is the
member `_list` and `list` the argument. -/
def copyLoop (fuel : Nat) (own list : Option Nat) : Nat → Nat → Memory α → Option (Memory α)
  | 0, _, m => some m
  | n + 1, i, m =>
    match m.readCell list i with
    | none => none
    | some none =>
      match m.writeCell own i none with
      | none => none
      | some m1 => copyLoop fuel own list n (i + 1) m1
    | some (some a) =>
      match m.nodes a with
      | none => none
      | some cur =>
        match (m.newNode { value := cur.value, next := none }).2.writeCell own i
            (some (m.newNode { value := cur.value, next := none }).1) with
        | none => none
        | some m2 =>
          match m2.nodes a with
          | none => none
          | some cur2 =>
            match copyTail fuel cur2.next (m.newNode { value := cur.value, next := none }).1
                m2 with
            | none => none
            | some m3 => copyLoop fuel own list n (i + 1) m3

/-- The member `copy_list(list)`. -/
def HashSet.copy_list (s : HashSet α) (fuel : Nat) (m : Memory α) (list : Option Nat) :
    Option (Memory α) :=
  copyLoop fuel s._list list s._cap 0 m

/-- The copy constructor `HashSet(const HashSet& s)`: the store after it and
the new object. -/
def HashSet.copyConstruct (s : HashSet α) (fuel : Nat) (m : Memory α) :
    Option (Memory α × HashSet α) :=
  match HashSet.copy_list
      { hashFunction := s.hashFunction, _sz := s._sz, _cap := s._cap,
        _list := some (m.newArray s._cap).1 }
      fuel (m.newArray s._cap).2 s._list with
  | none => none
  | some m1 =>
    some (m1,
      { hashFunction := s.hashFunction, _sz := s._sz, _cap := s._cap,
        _list := some (m.newArray s._cap).1 })

/-- The inner `while (cur != nullptr)` loop of `resize`. -/
def resizeChain (hashFunction : α → Nat) (newCap : Nat) (newList : Option Nat) :
    Nat → Option Nat → Memory α → Option (Memory α)
  | _, none, m => some m
  | 0, some _, _ => none
  | fuel + 1, some a, m =>
    match m.nodes a with
    | none => none
    | some cur =>
      if newCap = 0 then none
      else
        match m.readCell newList (hashFunction cur.value % newCap) with
        | none => none
        | some head =>
          match (m.newNode { value := cur.value, next := head }).2.writeCell newList
              (hashFunction cur.value % newCap)
              (some (m.newNode { value := cur.value, next := head }).1) with
          | none => none
          | some m2 =>
            match m2.nodes a with
            | none => none
            | some cur2 => resizeChain hashFunction newCap newList fuel cur2.next m2

/-- The outer loop `for (int i = 0; i < _cap; ++i)` of `resize`. -/
def resizeLoop (fuel : Nat) (hashFunction : α → Nat) (list : Option Nat) (newCap : Nat)
    (newList : Option Nat) : Nat → Nat → Memory α → Option (Memory α)
  | 0, _, m => some m
  | n + 1, i, m =>
    match m.readCell list i with
    | none => none
    | some cur =>
      match resizeChain hashFunction newCap newList fuel cur m with
      | none => none
      | some m1 => resizeLoop fuel hashFunction list newCap newList n (i + 1) m1

/-- The `while (cur != nullptr)` loop of `delete_list`. -/
def deleteChain : Nat → Option Nat → Memory α → Option (Memory α)
  | _, none, m => some m
  | 0, some _, _ => none
  | fuel + 1, some a, m =>
    match m.nodes a with
    | none => none
    | some cur =>
      match m.deleteNode a with
      | none => none
      | some m1 => deleteChain fuel cur.next m1

/-- The loop `for (int i = 0; i < _cap; ++i)` of `delete_list`. -/
def deleteLoop (fuel : Nat) (list : Option Nat) : Nat → Nat → Memory α → Option (Memory α)
  | 0, _, m => some m
  | n + 1, i, m =>
    match m.readCell list i with
    | none => none
    | some cur =>
      match deleteChain fuel cur m with
      | none => none
      | some m1 => deleteLoop fuel list n (i + 1) m1

/-- The member `delete_list()`. -/
def HashSet.delete_list (s : HashSet α) (fuel : Nat) (m : Memory α) : Option (Memory α) :=
  match deleteLoop fuel s._list s._cap 0 m with
  | none => none
  | some m1 =>
    match s._list with
    | none => some m1
    | some a => m1.deleteArray a

/-- The member `resize()`. -/
def HashSet.resize (s : HashSet α) (fuel : Nat) (m : Memory α) :
    Option (Memory α × HashSet α) :=
  match resizeLoop fuel s.hashFunction s._list (s._cap * 2 + 1)
      (some (m.newArray (s._cap * 2 + 1)).1) s._cap 0 (m.newArray (s._cap * 2 + 1)).2 with
  | none => none
  | some m1 =>
    match s.delete_list fuel m1 with
    | none => none
    | some m2 =>
      some (m2, { s with _list := some (m.newArray (s._cap * 2 + 1)).1, _cap := s._cap * 2 + 1 })

/-- The member `add(element)`. -/
def HashSet.add [DecidableEq α] (s : HashSet α) (fuel : Nat) (m : Memory α) (element : α) :
    Option (Memory α × HashSet α) :=
  match s.contains fuel m element with
  | none => none
  | some true => some (m, s)
  | some false =>
    match (if 5 * (s._sz + 1) > 4 * s._cap then
        HashSet.resize { s with _sz := s._sz + 1 } fuel m
      else some (m, { s with _sz := s._sz + 1 })) with
    | none => none
    | some (m2, s2) =>
      if s2._cap = 0 then none
      else
        match m2.readCell s2._list (s2.hashFunction element % s2._cap) with
        | none => none
        | some head =>
          match (m2.newNode { value := element, next := head }).2.writeCell s2._list
              (s2.hashFunction element % s2._cap)
              (some (m2.newNode { value := element, next := head }).1) with
          | none => none
          | some m3 => some (m3, s2)

/-- No address at or beyond `brk` is live. -/
def WF (m : Memory α) : Prop :=
  ∀ a, m.brk ≤ a → m.nodes a = none ∧ m.arrays a = none

/-- The pointer `p` is the head of a chain of live nodes that holds the values
`l` in this order, every node at an address in `P`. -/
def Chain (m : Memory α) (P : Nat → Prop) : Option Nat → List α → Prop
  | p, [] => p = none
  | p, v :: t =>
    ∃ a nd, p = some a ∧ P a ∧ m.nodes a = some nd ∧ nd.value = v ∧ Chain m P nd.next t

/-- The cells `ps` of a bucket array are the heads of chains holding `L`. -/
def Cells (m : Memory α) (P : Nat → Prop) (ps : List (Option Nat)) (L : List (List α)) : Prop :=
  ps.length = L.length ∧
    ∀ (i : Nat) (p : Option Nat) (l : List α), ps[i]? = some p → L[i]? = some l → Chain m P p l

/-- The object `s` owns, at addresses in `P`, a live bucket array of `_cap` cells
whose chains hold `L`. -/
def Repr (m : Memory α) (P : Nat → Prop) (s : HashSet α) (L : List (List α)) : Prop :=
  ∃ a ps, s._list = some a ∧ P a ∧ m.arrays a = some ps ∧ ps.length = s._cap ∧ Cells m P ps L

/-- A store with the set `sampleSet`: the array at address 0, the chain 4, 2 at
the addresses 1 and 2, the chain 1 at address 3. -/
def sampleMemory : Memory Nat :=
  { nodes := fun a =>
      if a = 1 then some { value := 4, next := some 2 }
      else if a = 2 then some { value := 2, next := none }
      else if a = 3 then some { value := 1, next := none }
      else none
    arrays := fun a => if a = 0 then some [some 1, some 3] else none
    brk := 4 }

/-- A set of capacity 2 with `h(x) = x` whose array is at address 0. -/
def sampleSet : HashSet Nat :=
  { hashFunction := fun x => x, _sz := 3, _cap := 2, _list := some 0 }

end Heap

/-! ## The loops over one chain -/

theorem countChain_eq (c : List α) (num : Nat) : countChain c num = num + c.length := by
  induction c generalizing num with
  | nil => simp [countChain]
  | cons v next ih => simp [countChain, ih]; omega

theorem scanChain_eq [DecidableEq α] (element : α) (c : List α) :
    scanChain element c = decide (element ∈ c) := by
  induction c with
  | nil => simp [scanChain]
  | cons v next ih =>
    by_cases hv : v = element
    · simp [scanChain, hv]
    · have hne : ¬ element = v := fun h => hv h.symm
      simp [scanChain, hv, hne, ih]

/-! ## Bucket arrays -/

theorem placed_null_init (hashFunction : α → Nat) (cap size : Nat) :
    Placed hashFunction cap (null_init_list size : List (List α)) := by
  intro i c hc x hx
  simp only [null_init_list, List.getElem?_replicate] at hc
  split at hc
  · cases hc; simp at hx
  · cases hc

theorem flatten_null_init (size : Nat) :
    (null_init_list size : List (List α)).flatten = [] := by
  simp [null_init_list]

theorem length_null_init (size : Nat) :
    (null_init_list size : List (List α)).length = size := by
  simp [null_init_list]

/-- Prepending a node to the chain of one cell adds that element to the contents. -/
theorem flatten_set_cons (l : List (List α)) (i : Nat) (c : List α) (x : α)
    (hc : l[i]? = some c) : (l.set i (x :: c)).flatten.Perm (x :: l.flatten) := by
  induction l generalizing i with
  | nil => simp at hc
  | cons d rest ih =>
    cases i with
    | zero =>
      simp only [List.getElem?_cons_zero, Option.some.injEq] at hc
      subst hc
      simp
    | succ j =>
      simp only [List.getElem?_cons_succ] at hc
      have h1 := ih j hc
      simp only [List.set_cons_succ, List.flatten_cons]
      exact (List.Perm.append_left d h1).trans List.perm_middle

theorem placed_set_cons (hashFunction : α → Nat) (cap : Nat) (l : List (List α)) (c : List α)
    (x : α) (hp : Placed hashFunction cap l) (hc : l[hashFunction x % cap]? = some c) :
    Placed hashFunction cap (l.set (hashFunction x % cap) (x :: c)) := by
  intro i d hd y hy
  by_cases hi : hashFunction x % cap = i
  · subst hi
    have hlt : hashFunction x % cap < l.length := by
      rcases List.getElem?_eq_some.mp hc with ⟨h, _⟩
      exact h
    rw [List.getElem?_set_self hlt] at hd
    cases hd
    rcases List.mem_cons.mp hy with hy | hy
    · rw [hy]
    · exact hp _ c hc y hy
  · rw [List.getElem?_set_ne hi] at hd
    exact hp i d hd y hy

/-! ## resize -/

theorem resizeChain_spec (h : α → Nat) (newCap : Nat) (hpos : 0 < newCap) (chain : List α) :
    ∀ newList : List (List α), newList.length = newCap →
      ∃ out, resizeChain h newCap chain newList = some out ∧ out.length = newCap ∧
        out.flatten.Perm (chain ++ newList.flatten) ∧
        (Placed h newCap newList → Placed h newCap out) := by
  induction chain with
  | nil =>
    intro newList hlen
    exact ⟨newList, rfl, hlen, by simp, fun hp => hp⟩
  | cons v next ih =>
    intro newList hlen
    have hlt : h v % newCap < newList.length := by
      rw [hlen]; exact Nat.mod_lt _ hpos
    have hget : newList[h v % newCap]? = some (newList[h v % newCap]) :=
      List.getElem?_eq_getElem hlt
    have hlen2 : (newList.set (h v % newCap) (v :: newList[h v % newCap])).length = newCap := by
      rw [List.length_set]; exact hlen
    rcases ih _ hlen2 with ⟨out, hout, holen, hperm, hplaced⟩
    refine ⟨out, ?_, holen, ?_, ?_⟩
    · simp only [resizeChain, Nat.pos_iff_ne_zero.mp hpos, if_false, hget]
      exact hout
    · refine hperm.trans ?_
      have h1 := flatten_set_cons newList _ _ v hget
      exact (List.Perm.append_left next h1).trans List.perm_middle
    · intro hp
      exact hplaced (placed_set_cons h newCap newList _ v hp hget)

theorem resizeLoop_spec (h : α → Nat) (newCap : Nat) (hpos : 0 < newCap) (rest : List (List α)) :
    ∀ (pre : List (List α)) (newList : List (List α)), newList.length = newCap →
      ∃ out, resizeLoop h (pre ++ rest) newCap rest.length pre.length newList = some out ∧
        out.length = newCap ∧ out.flatten.Perm (rest.flatten ++ newList.flatten) ∧
        (Placed h newCap newList → Placed h newCap out) := by
  induction rest with
  | nil =>
    intro pre newList hlen
    exact ⟨newList, rfl, hlen, by simp, fun hp => hp⟩
  | cons cur rest ih =>
    intro pre newList hlen
    rcases resizeChain_spec h newCap hpos cur newList hlen with ⟨mid, hmid, hmlen, hmperm, hmpl⟩
    have hstep := ih (pre ++ [cur]) mid hmlen
    rw [List.append_assoc, List.singleton_append, List.length_append, List.length_singleton]
      at hstep
    rcases hstep with ⟨out, hout, holen, hperm, hplaced⟩
    refine ⟨out, ?_, holen, ?_, fun hp => hplaced (hmpl hp)⟩
    · have hget : (pre ++ cur :: rest)[pre.length]? = some cur := by
        rw [List.getElem?_append_right (Nat.le_refl _)]
        simp
      simp only [List.length_cons, resizeLoop, hget, hmid]
      exact hout
    · refine hperm.trans ?_
      refine (List.Perm.append_left rest.flatten hmperm).trans ?_
      simp only [List.flatten_cons, List.append_assoc]
      rw [← List.append_assoc, ← List.append_assoc]
      exact List.Perm.append_right _ List.perm_append_comm

/-- What `resize` does to a set whose array has `_cap` cells. -/
theorem resize_spec (s : HashSet α) (hlen : s._list.length = s._cap) :
    ∃ newList, s.resize = some { s with _list := newList, _cap := s._cap * 2 + 1 } ∧
      newList.length = s._cap * 2 + 1 ∧ newList.flatten.Perm s._list.flatten ∧
      Placed s.hashFunction (s._cap * 2 + 1) newList := by
  have hpos : 0 < s._cap * 2 + 1 := Nat.succ_pos _
  have hl := resizeLoop_spec s.hashFunction (s._cap * 2 + 1) hpos s._list []
    (null_init_list (s._cap * 2 + 1)) (length_null_init _)
  rw [List.nil_append, List.length_nil, hlen] at hl
  rcases hl with ⟨out, hout, holen, hperm, hplaced⟩
  refine ⟨out, ?_, holen, ?_, hplaced (placed_null_init _ _ _)⟩
  · simp only [HashSet.resize, hout]
  · simpa [flatten_null_init] using hperm

/-! ## contains and add -/

theorem isElementAtIndex_inbounds [DecidableEq α] (s : HashSet α) (x : α) (i : Nat)
    (hi : i < s._list.length) :
    s.isElementAtIndex x i = some (decide (x ∈ s._list[i])) := by
  simp only [HashSet.isElementAtIndex, List.getElem?_eq_getElem hi, scanChain_eq]

/-- On a set with a proper array, `contains` decides membership in the contents. -/
theorem contains_spec [DecidableEq α] (s : HashSet α) (x : α)
    (hlen : s._list.length = s._cap) (hpos : 0 < s._cap)
    (hp : Placed s.hashFunction s._cap s._list) :
    s.contains x = some (decide (x ∈ s._list.flatten)) := by
  have hlt : s.hashFunction x % s._cap < s._list.length := by
    rw [hlen]; exact Nat.mod_lt _ hpos
  simp only [HashSet.contains, Nat.pos_iff_ne_zero.mp hpos, if_false,
    isElementAtIndex_inbounds s x _ hlt]
  congr 1
  apply decide_eq_decide.mpr
  constructor
  · intro hx
    exact List.mem_flatten.mpr ⟨_, List.getElem_mem hlt, hx⟩
  · intro hx
    rcases List.mem_flatten.mp hx with ⟨c, hc, hxc⟩
    rcases List.getElem_of_mem hc with ⟨j, hj, hjc⟩
    have hget : s._list[j]? = some c := by
      rw [List.getElem?_eq_getElem hj, hjc]
    have hidx := hp j c hget x hxc
    subst hidx
    rw [hjc]
    exact hxc

/-- The last two statements of `add` restore the invariant: the new node goes
to the front of the chain its hash selects. -/
theorem inv_prepend (h : α → Nat) (s2 : HashSet α) (x : α) (head : List α)
    (hh : s2.hashFunction = h) (hlen : s2._list.length = s2._cap)
    (hcap : DEFAULT_CAPACITY ≤ s2._cap) (hpl : Placed s2.hashFunction s2._cap s2._list)
    (hsz : s2._sz = s2._list.flatten.length + 1) (hnd : (x :: s2._list.flatten).Nodup)
    (hload : 5 * s2._sz ≤ 4 * s2._cap)
    (hget : s2._list[s2.hashFunction x % s2._cap]? = some head) :
    Inv h { s2 with _list := s2._list.set (s2.hashFunction x % s2._cap) (x :: head) } := by
  have hperm := flatten_set_cons s2._list _ head x hget
  refine ⟨hh, ?_, hcap, ?_, ?_, ?_, hload⟩
  · simp only [List.length_set]; exact hlen
  · exact placed_set_cons s2.hashFunction s2._cap s2._list head x hpl hget
  · simp only [hperm.length_eq, List.length_cons]; exact hsz
  · exact hperm.nodup_iff.mpr hnd

theorem add_old_spec [DecidableEq α] (s : HashSet α) (x : α)
    (hc : s.contains x = some true) : s.add x = some s := by
  simp only [HashSet.add, hc]

theorem add_new_spec [DecidableEq α] (h : α → Nat) (s : HashSet α) (x : α) (hinv : Inv h s)
    (hx : x ∉ s._list.flatten) :
    ∃ s1, s.add x = some s1 ∧ Inv h s1 ∧ s1._sz = s._sz + 1 ∧
      s1._cap = (if 5 * (s._sz + 1) > 4 * s._cap then s._cap * 2 + 1 else s._cap) ∧
      s1._list.flatten.Perm (x :: s._list.flatten) := by
  have hcap := hinv.cap
  simp only [DEFAULT_CAPACITY] at hcap
  have hc : s.contains x = some false := by
    rw [contains_spec s x hinv.len (by omega) hinv.placed]
    simp [hx]
  have hnd : (x :: s._list.flatten).Nodup := List.nodup_cons.mpr ⟨hx, hinv.nodup⟩
  by_cases hload : 5 * (s._sz + 1) > 4 * s._cap
  · rcases resize_spec { s with _sz := s._sz + 1 } hinv.len with
      ⟨newList, hres, hnlen, hnperm, hnpl⟩
    simp only at hnlen hnperm hnpl
    have hlt : s.hashFunction x % (s._cap * 2 + 1) < newList.length := by
      rw [hnlen]; exact Nat.mod_lt _ (Nat.succ_pos _)
    have hget := List.getElem?_eq_getElem hlt
    simp only [HashSet.add, hc, hload, if_true, hres, Nat.succ_ne_zero, if_false, hget]
    refine ⟨_, rfl, ?_, rfl, rfl, ?_⟩
    · refine inv_prepend h
        { hashFunction := s.hashFunction, _sz := s._sz + 1, _cap := s._cap * 2 + 1,
          _list := newList } x _ hinv.hash hnlen ?_ hnpl ?_ ?_ ?_ hget
      · simp only [DEFAULT_CAPACITY]; omega
      · simp only [hnperm.length_eq, hinv.size]
      · exact (List.Perm.cons x hnperm).nodup_iff.mpr hnd
      · have := hinv.load
        simp only
        omega
    · exact (flatten_set_cons newList _ _ x hget).trans (List.Perm.cons x hnperm)
  · have hlt : s.hashFunction x % s._cap < s._list.length := by
      rw [hinv.len]; exact Nat.mod_lt _ (by omega)
    have hget := List.getElem?_eq_getElem hlt
    have hne : s._cap ≠ 0 := by omega
    simp only [HashSet.add, hc, hload, if_false, hne, hget]
    refine ⟨_, rfl, ?_, rfl, rfl, ?_⟩
    · refine inv_prepend h
        { hashFunction := s.hashFunction, _sz := s._sz + 1, _cap := s._cap,
          _list := s._list } x _ hinv.hash hinv.len hinv.cap hinv.placed ?_ hnd ?_ hget
      · simp only [hinv.size]
      · simp only
        omega
    · exact flatten_set_cons s._list _ _ x hget

/-- The effect of one `add` on a set that satisfies the invariant. -/
theorem add_spec [DecidableEq α] (h : α → Nat) (s : HashSet α) (x : α) (hinv : Inv h s) :
    ∃ s1, s.add x = some s1 ∧ Inv h s1 ∧
      (∀ y, y ∈ s1._list.flatten ↔ y = x ∨ y ∈ s._list.flatten) ∧
      (x ∈ s._list.flatten → s1 = s) ∧
      (x ∉ s._list.flatten → s1._sz = s._sz + 1 ∧
        s1._cap = (if 5 * (s._sz + 1) > 4 * s._cap then s._cap * 2 + 1 else s._cap)) := by
  have hcap := hinv.cap
  simp only [DEFAULT_CAPACITY] at hcap
  by_cases hx : x ∈ s._list.flatten
  · have hc : s.contains x = some true := by
      rw [contains_spec s x hinv.len (by omega) hinv.placed]
      simp [hx]
    refine ⟨s, add_old_spec s x hc, hinv, ?_, fun _ => rfl, fun hn => absurd hx hn⟩
    intro y
    constructor
    · exact fun hy => Or.inr hy
    · rintro (hy | hy)
      · rw [hy]; exact hx
      · exact hy
  · rcases add_new_spec h s x hinv hx with ⟨s1, hadd, hinv1, hsz, hcp, hperm⟩
    refine ⟨s1, hadd, hinv1, ?_, fun hin => absurd hin hx, fun _ => ⟨hsz, hcp⟩⟩
    intro y
    rw [hperm.mem_iff, List.mem_cons]

theorem inv_new (h : α → Nat) : Inv h (HashSet.new h) := by
  refine ⟨rfl, ?_, Nat.le_refl _, ?_, ?_, ?_, ?_⟩
  · exact length_null_init _
  · exact placed_null_init _ _ _
  · simp [HashSet.new, flatten_null_init]
  · simp [HashSet.new, flatten_null_init]
  · simp [HashSet.new]

/-- A sequence of `add` calls on a set that satisfies the invariant never fails,
keeps the invariant and stores exactly the old elements and the added ones. -/
theorem addAll_spec [DecidableEq α] (h : α → Nat) (xs : List α) :
    ∀ s : HashSet α, Inv h s →
      ∃ s1, s.addAll xs = some s1 ∧ Inv h s1 ∧
        (∀ y, y ∈ s1._list.flatten ↔ y ∈ xs ∨ y ∈ s._list.flatten) ∧
        s._cap ≤ s1._cap := by
  induction xs with
  | nil =>
    intro s hinv
    exact ⟨s, rfl, hinv, by simp, Nat.le_refl _⟩
  | cons x xs ih =>
    intro s hinv
    rcases add_spec h s x hinv with ⟨s1, hadd, hinv1, hmem1, hold, hnew⟩
    rcases ih s1 hinv1 with ⟨s2, hall, hinv2, hmem2, hle⟩
    refine ⟨s2, ?_, hinv2, ?_, ?_⟩
    · simp only [HashSet.addAll, hadd]
      exact hall
    · intro y
      rw [hmem2, hmem1, List.mem_cons]
      tauto
    · refine Nat.le_trans ?_ hle
      by_cases hx : x ∈ s._list.flatten
      · rw [hold hx]
      · rw [(hnew hx).2]
        split <;> omega

/-- Every sequence of `add` calls on a fresh set succeeds; the result satisfies
the invariant and stores exactly the elements of the sequence. -/
theorem addAll_new [DecidableEq α] (h : α → Nat) (xs : List α) :
    ∃ s, (HashSet.new h).addAll xs = some s ∧ Inv h s ∧
      (∀ y, y ∈ s._list.flatten ↔ y ∈ xs) ∧ DEFAULT_CAPACITY ≤ s._cap := by
  rcases addAll_spec h xs (HashSet.new h) (inv_new h) with ⟨s, hs, hinv, hmem, _⟩
  refine ⟨s, hs, hinv, ?_, hinv.cap⟩
  intro y
  rw [hmem y]
  simp [HashSet.new, flatten_null_init]

/-- A property that `add` preserves on sets satisfying the invariant holds after
every sequence of `add` calls. -/
theorem addAll_induct [DecidableEq α] (h : α → Nat) (P : HashSet α → Prop)
    (hstep : ∀ s x s1, Inv h s → P s → s.add x = some s1 → P s1) (xs : List α) :
    ∀ s, Inv h s → P s → ∀ s1, s.addAll xs = some s1 → P s1 := by
  induction xs with
  | nil =>
    intro s _ hP s1 hs
    simp only [HashSet.addAll, Option.some.injEq] at hs
    rw [← hs]; exact hP
  | cons x xs ih =>
    intro s hinv hP s2 hs
    rcases add_spec h s x hinv with ⟨s1, hadd, hinv1, _, _, _⟩
    simp only [HashSet.addAll, hadd] at hs
    exact ih s1 hinv1 (hstep s x s1 hinv hP hadd) s2 hs

theorem size_eq_card [DecidableEq α] (h : α → Nat) (s : HashSet α) (xs : List α)
    (hinv : Inv h s) (hmem : ∀ y, y ∈ s._list.flatten ↔ y ∈ xs) :
    s._sz = xs.toFinset.card := by
  rw [hinv.size, ← List.toFinset_card_of_nodup hinv.nodup]
  congr 1
  ext y
  simp [hmem y]

/-- In a set with a proper array, a cell inside the capacity holds a chain and
`elementsAtIndex` returns its length. -/
theorem elementsAtIndex_inbounds (s : HashSet α) (index : Nat)
    (hlen : s._list.length = s._cap) (hi : index < s._cap) :
    ∃ chain, s._list[index]? = some chain ∧ s.elementsAtIndex index = some chain.length := by
  have hlt : index < s._list.length := by rw [hlen]; exact hi
  refine ⟨s._list[index], List.getElem?_eq_getElem hlt, ?_⟩
  simp only [HashSet.elementsAtIndex, ge_iff_le, Nat.not_le.mpr hi, if_false,
    List.getElem?_eq_getElem hlt, countChain_eq, Nat.zero_add]

theorem elementsAtIndex_outside (s : HashSet α) (index : Nat) (hi : s._cap ≤ index) :
    s.elementsAtIndex index = some 0 := by
  simp only [HashSet.elementsAtIndex, ge_iff_le, hi, if_true]

/-- While at most eight elements are stored the capacity is still the default one. -/
theorem small_keeps_capacity [DecidableEq α] (h : α → Nat) (xs : List α) (s : HashSet α)
    (hs : (HashSet.new h).addAll xs = some s) : s._sz ≤ 8 → s._cap = 10 := by
  refine addAll_induct h (fun t => t._sz ≤ 8 → t._cap = 10) ?_ xs (HashSet.new h)
    (inv_new h) (fun _ => rfl) s hs
  intro t x t1 hinv hP hadd hsz
  rcases add_spec h t x hinv with ⟨t2, hadd2, _, _, hold, hnew⟩
  rw [hadd] at hadd2
  cases hadd2
  by_cases hx : x ∈ t._list.flatten
  · rw [hold hx] at hsz ⊢
    exact hP hsz
  · rcases hnew hx with ⟨h1, h2⟩
    have h3 : t._cap = 10 := hP (by omega)
    rw [h2, h3]
    have h4 : ¬ (5 * (t._sz + 1) > 4 * 10) := by omega
    simp only [h4, if_false]

theorem placed_sampleTwo : Placed sampleTwo.hashFunction sampleTwo._cap sampleTwo._list := by
  intro i c hc x hx
  rcases i with _ | _ | i
  · cases hc
    rcases List.mem_cons.mp hx with hx | hx
    · subst hx; rfl
    · rcases List.mem_cons.mp hx with hx | hx
      · subst hx; rfl
      · cases hx
  · cases hc
    rcases List.mem_cons.mp hx with hx | hx
    · subst hx; rfl
    · cases hx
  · cases hc

/-- The capacity of a set built by `add` calls is the default one or at most
`(5 * _sz + 1) / 2`: it stays below `2^31` while fewer than `8 * 10^8` elements
are stored, so the 32-bit arithmetic of the source does not overflow there. -/
theorem capacity_bounded [DecidableEq α] (h : α → Nat) (xs : List α) (s : HashSet α)
    (hs : (HashSet.new h).addAll xs = some s) :
    s._cap = 10 ∨ 2 * s._cap ≤ 5 * s._sz + 1 := by
  refine addAll_induct h (fun t => t._cap = 10 ∨ 2 * t._cap ≤ 5 * t._sz + 1) ?_ xs
    (HashSet.new h) (inv_new h) (Or.inl rfl) s hs
  intro t x t1 hinv hP hadd
  rcases add_spec h t x hinv with ⟨t2, hadd2, _, _, hold, hnew⟩
  rw [hadd] at hadd2
  cases hadd2
  by_cases hx : x ∈ t._list.flatten
  · rw [hold hx]; exact hP
  · rcases hnew hx with ⟨h1, h2⟩
    rw [h1, h2]
    split
    · right; omega
    · rcases hP with hP | hP
      · left; exact hP
      · right; omega

/-! ## The claims -/

/-- C1 (membership correctness): after any sequence of `add` calls on a fresh
set, whatever the hash function, every element `x` of the sequence has
`contains(x) == true`; also `isElementAtIndex(x, h(x) mod capacity())` is true
and `elementsAtIndex(h(x) mod capacity())` is at least 1.  The sequence is
arbitrary, so `x` may be its last element or be followed by any number of other
adds and resizes. -/
theorem C1_membership [DecidableEq α] (h : α → Nat) (xs : List α) (x : α) (hx : x ∈ xs) :
    ∃ s, (HashSet.new h).addAll xs = some s ∧ s.contains x = some true ∧
      s.isElementAtIndex x (h x % s.capacity) = some true ∧
      ∃ n, s.elementsAtIndex (h x % s.capacity) = some n ∧ 1 ≤ n := by
  rcases addAll_new h xs with ⟨s, hs, hinv, hmem, hcap⟩
  simp only [DEFAULT_CAPACITY] at hcap
  have hpos : 0 < s._cap := by omega
  have hc : s.contains x = some true := by
    rw [contains_spec s x hinv.len hpos hinv.placed]
    simp [(hmem x).mpr hx]
  have hi : s.isElementAtIndex x (h x % s._cap) = some true := by
    rw [← hc, ← hinv.hash]
    simp only [HashSet.contains, Nat.pos_iff_ne_zero.mp hpos, if_false]
  refine ⟨s, hs, hc, hi, ?_⟩
  rcases elementsAtIndex_inbounds s (h x % s._cap) hinv.len (Nat.mod_lt _ hpos) with
    ⟨chain, hget, hel⟩
  refine ⟨chain.length, hel, ?_⟩
  simp only [HashSet.isElementAtIndex, hget, scanChain_eq, Option.some.injEq,
    decide_eq_true_eq] at hi
  exact List.length_pos_of_mem hi

/-- Witness of C1: the element 3 after eleven adds with `h(x) = x`, two of them
colliding with 3 and one of them resizing the array. -/
theorem C1_membership_witness :
    (3 : Nat) ∈ [3, 13, 23, 1, 2, 4, 5, 6, 7, 8, 9] ∧
    ∃ s, (HashSet.new (fun x : Nat => x)).addAll [3, 13, 23, 1, 2, 4, 5, 6, 7, 8, 9] = some s ∧
      s.contains 3 = some true ∧
      s.isElementAtIndex 3 ((fun x : Nat => x) 3 % s.capacity) = some true ∧
      ∃ n, s.elementsAtIndex ((fun x : Nat => x) 3 % s.capacity) = some n ∧ 1 ≤ n :=
  ⟨by decide, C1_membership (fun x : Nat => x) [3, 13, 23, 1, 2, 4, 5, 6, 7, 8, 9] 3 (by decide)⟩

/-- C2 (uniqueness): after any sequence of `add` calls on a fresh set, whatever
the hash function, `size()` is the number of distinct elements of the sequence. -/
theorem C2_size_counts_distinct [DecidableEq α] (h : α → Nat) (xs : List α) :
    ∃ s, (HashSet.new h).addAll xs = some s ∧ s.size = xs.toFinset.card := by
  rcases addAll_new h xs with ⟨s, hs, hinv, hmem, _⟩
  exact ⟨s, hs, size_eq_card h s xs hinv hmem⟩

/-- C3 (load-factor bound): for a set reached from a fresh one by `add` calls,
any further `add` succeeds and leaves `5 * size() ≤ 4 * capacity()`; the capacity
after it is the old one or the old one resized once. -/
theorem C3_load_factor [DecidableEq α] (h : α → Nat) (xs : List α) (x : α) :
    ∃ s s1, (HashSet.new h).addAll xs = some s ∧ s.add x = some s1 ∧
      5 * s1.size ≤ 4 * s1.capacity ∧
      (s1.capacity = s.capacity ∨ s1.capacity = s.capacity * 2 + 1) := by
  rcases addAll_new h xs with ⟨s, hs, hinv, _, _⟩
  rcases add_spec h s x hinv with ⟨s1, hadd, hinv1, _, hold, hnew⟩
  refine ⟨s, s1, hs, hadd, hinv1.load, ?_⟩
  by_cases hx : x ∈ s._list.flatten
  · left; rw [hold hx]
  · simp only [HashSet.capacity, (hnew hx).2]
    split
    · right; rfl
    · left; rfl

/-- C4 (idempotence of add): for a set `s` reached from a fresh one by `add`
calls, `add(x)` returns `s` itself when `contains(x)` is true, and a second
`add(x)` after a first one returns the state the first one produced. -/
theorem C4_add_idempotent [DecidableEq α] (h : α → Nat) (xs : List α) (x : α) :
    ∃ s, (HashSet.new h).addAll xs = some s ∧
      (s.contains x = some true → s.add x = some s) ∧
      ∃ s1, s.add x = some s1 ∧ s1.add x = some s1 := by
  rcases addAll_new h xs with ⟨s, hs, hinv, _, _⟩
  rcases add_spec h s x hinv with ⟨s1, hadd, hinv1, hmem1, _, _⟩
  rcases add_spec h s1 x hinv1 with ⟨s2, hadd2, _, _, hold2, _⟩
  refine ⟨s, hs, add_old_spec s x, s1, hadd, ?_⟩
  rw [hadd2, hold2 ((hmem1 x).mpr (Or.inl rfl))]

/-- Witness of C4: 5 is added to a set that already contains it. -/
theorem C4_add_idempotent_witness :
    ∃ s, (HashSet.new (fun x : Nat => x)).addAll [5, 15] = some s ∧
      s.contains 5 = some true ∧ s.add 5 = some s := by
  rcases C4_add_idempotent (fun x : Nat => x) [5, 15] 5 with ⟨s, hs, hno, _⟩
  have hc : ((HashSet.new (fun x : Nat => x)).addAll [5, 15]).bind
      (fun t => t.contains 5) = some true := by decide
  rw [hs] at hc
  exact ⟨s, hs, hc, hno hc⟩

/-- C5, as stated, fails: with `h(x) = x`, after the adds of 0, 1, ..., 7 the
size is 8 and the capacity is not 21. -/
theorem C5_counterexample :
    ¬ ∃ s, (HashSet.new (fun x : Nat => x)).addAll [0, 1, 2, 3, 4, 5, 6, 7] = some s ∧
      s.size = 8 ∧ s.capacity = 21 := by
  rintro ⟨s, hs, _, hc⟩
  have h10 : ((HashSet.new (fun x : Nat => x)).addAll [0, 1, 2, 3, 4, 5, 6, 7]).map
      HashSet.capacity = some 10 := by decide
  rw [hs] at h10
  have h11 : s.capacity = 10 := Option.some.inj h10
  omega

/-- C5 (amended): from a fresh set with `h(x) = x`, after adding 8 distinct
elements `size() == 8` and `capacity() == 10`: the ratio is exactly 0.8, which
does not exceed 0.8.  The add of a ninth distinct element resizes:
`size() == 9` and `capacity() == 21`. -/
theorem C5_eight_adds_keep_capacity (xs : List Nat) (x : Nat) (hnd : xs.Nodup)
    (hlen : xs.length = 8) (hx : x ∉ xs) :
    ∃ s s1, (HashSet.new (fun x : Nat => x)).addAll xs = some s ∧
      s.size = 8 ∧ s.capacity = 10 ∧
      s.add x = some s1 ∧ s1.size = 9 ∧ s1.capacity = 21 := by
  rcases addAll_new (fun x : Nat => x) xs with ⟨s, hs, hinv, hmem, _⟩
  have hsz : s._sz = 8 := by
    rw [size_eq_card _ s xs hinv hmem, List.toFinset_card_of_nodup hnd, hlen]
  have hcp : s._cap = 10 := small_keeps_capacity _ xs s hs (by omega)
  rcases add_spec _ s x hinv with ⟨s1, hadd, _, _, _, hnew⟩
  have hx1 : x ∉ s._list.flatten := fun hin => hx ((hmem x).mp hin)
  rcases hnew hx1 with ⟨h1, h2⟩
  refine ⟨s, s1, hs, hsz, hcp, hadd, ?_, ?_⟩
  · simp only [HashSet.size, h1, hsz]
  · simp only [HashSet.capacity, h2, hsz, hcp]
    decide

/-- Witness of the amended C5: the elements 0, ..., 7 and then 8. -/
theorem C5_eight_adds_keep_capacity_witness :
    [0, 1, 2, 3, 4, 5, 6, 7].Nodup ∧ [0, 1, 2, 3, 4, 5, 6, 7].length = 8 ∧
    8 ∉ [0, 1, 2, 3, 4, 5, 6, 7] ∧
    ∃ s s1, (HashSet.new (fun x : Nat => x)).addAll [0, 1, 2, 3, 4, 5, 6, 7] = some s ∧
      s.size = 8 ∧ s.capacity = 10 ∧
      s.add 8 = some s1 ∧ s1.size = 9 ∧ s1.capacity = 21 :=
  ⟨by decide, by decide, by decide,
    C5_eight_adds_keep_capacity [0, 1, 2, 3, 4, 5, 6, 7] 8 (by decide) (by decide) (by decide)⟩

/-- C6 (code evaluated at the failing input): on a fresh set, whose array has
10 cells, `isElementAtIndex(e, 1000)` reads `_list[1000]`, a cell outside the
array, and has no defined result, whereas `elementsAtIndex(1000)` returns 0. -/
theorem C6_isElementAtIndex_reads_outside [DecidableEq α] (h : α → Nat) (e : α) :
    (HashSet.new h).capacity = 10 ∧ (HashSet.new h)._list.length = 10 ∧
      (HashSet.new h).isElementAtIndex e 1000 = none ∧
      (HashSet.new h).elementsAtIndex 1000 = some 0 := by
  refine ⟨rfl, length_null_init _, ?_, rfl⟩
  simp [HashSet.isElementAtIndex, HashSet.new, null_init_list, DEFAULT_CAPACITY]

/-- C7 (elementsAtIndex): in a set whose array has `capacity()` cells, for an
index below the capacity a chain is stored at that bucket and
`elementsAtIndex(index)` returns its length; for an index at or beyond the
capacity it returns 0. -/
theorem C7_elementsAtIndex (s : HashSet α) (index : Nat) (hlen : s._list.length = s._cap) :
    (index < s.capacity →
      ∃ chain, s._list[index]? = some chain ∧ s.elementsAtIndex index = some chain.length) ∧
    (s.capacity ≤ index → s.elementsAtIndex index = some 0) :=
  ⟨elementsAtIndex_inbounds s index hlen, elementsAtIndex_outside s index⟩

/-- Witness of C7: `sampleThree`, probed at index 1 and at index 1000. -/
theorem C7_elementsAtIndex_witness :
    sampleThree._list.length = sampleThree._cap ∧
    (∃ chain, sampleThree._list[1]? = some chain ∧
      sampleThree.elementsAtIndex 1 = some chain.length) ∧
    sampleThree.elementsAtIndex 1000 = some 0 :=
  ⟨rfl, (C7_elementsAtIndex sampleThree 1 rfl).1 (by decide),
    (C7_elementsAtIndex sampleThree 1000 rfl).2 (by decide)⟩

/-- C8 (resize correctness): on a set with a proper array of capacity `c > 0`
whose elements are in the buckets of their hashes, `resize()` succeeds; the new
array has `2c + 1` cells, its chains hold a permutation of the old contents
(the same multiset, so the same number of nodes), every element lies in bucket
`h(element) mod (2c + 1)`, `size()` is unchanged and `contains(x)` answers as
before for every `x`. -/
theorem C8_resize_correct [DecidableEq α] (s : HashSet α) (hlen : s._list.length = s._cap)
    (hpos : 0 < s._cap) (hpl : Placed s.hashFunction s._cap s._list) :
    ∃ s1, s.resize = some s1 ∧ s1.capacity = 2 * s.capacity + 1 ∧
      s1._list.length = s1.capacity ∧ s1.hashFunction = s.hashFunction ∧
      s1.size = s.size ∧
      s1._list.flatten.Perm s._list.flatten ∧
      s1._list.flatten.length = s._list.flatten.length ∧
      (∀ i chain x, s1._list[i]? = some chain → x ∈ chain →
        i = s.hashFunction x % (2 * s.capacity + 1)) ∧
      (∀ x, s1.contains x = s.contains x) := by
  rcases resize_spec s hlen with ⟨newList, hres, hnlen, hperm, hnpl⟩
  have hcap : s._cap * 2 + 1 = 2 * s._cap + 1 := by omega
  refine ⟨_, hres, hcap, hnlen, rfl, rfl, hperm, hperm.length_eq, ?_, ?_⟩
  · intro i chain x hget hx
    simp only [HashSet.capacity, ← hcap]
    exact (hnpl i chain hget x hx).symm
  · intro x
    rw [contains_spec s x hlen hpos hpl,
      contains_spec _ x hnlen (Nat.succ_pos _) hnpl]
    simp only [hperm.mem_iff]

/-- Witness of C8: `sampleTwo` is resized from capacity 2 to capacity 5. -/
theorem C8_resize_correct_witness :
    sampleTwo._list.length = sampleTwo._cap ∧ 0 < sampleTwo._cap ∧
    Placed sampleTwo.hashFunction sampleTwo._cap sampleTwo._list ∧
    ∃ s1, sampleTwo.resize = some s1 ∧ s1.capacity = 2 * sampleTwo.capacity + 1 ∧
      s1._list.length = s1.capacity ∧ s1.hashFunction = sampleTwo.hashFunction ∧
      s1.size = sampleTwo.size ∧
      s1._list.flatten.Perm sampleTwo._list.flatten ∧
      s1._list.flatten.length = sampleTwo._list.flatten.length ∧
      (∀ i chain x, s1._list[i]? = some chain → x ∈ chain →
        i = sampleTwo.hashFunction x % (2 * sampleTwo.capacity + 1)) ∧
      (∀ x, s1.contains x = sampleTwo.contains x) :=
  ⟨rfl, by decide, placed_sampleTwo,
    C8_resize_correct sampleTwo rfl (by decide) placed_sampleTwo⟩

/-- C9 (placement invariant): after any sequence of `add` calls on a fresh set
with hash function `h`, every element `x` found in the chain at a bucket
`i < capacity()` satisfies `i == h(x) mod capacity()`; in particular
`isElementAtIndex(x, i)` is true only for that bucket. -/
theorem C9_placement [DecidableEq α] (h : α → Nat) (xs : List α) :
    ∃ s, (HashSet.new h).addAll xs = some s ∧
      (∀ i chain x, i < s.capacity → s._list[i]? = some chain → x ∈ chain →
        i = h x % s.capacity) ∧
      (∀ i x, i < s.capacity → s.isElementAtIndex x i = some true → i = h x % s.capacity) := by
  rcases addAll_new h xs with ⟨s, hs, hinv, _, _⟩
  have hpl := hinv.placed
  rw [hinv.hash] at hpl
  refine ⟨s, hs, fun i chain x _ hget hx => (hpl i chain hget x hx).symm, ?_⟩
  intro i x hi hel
  have hlt : i < s._list.length := by rw [hinv.len]; exact hi
  rw [isElementAtIndex_inbounds s x i hlt] at hel
  simp only [Option.some.injEq, decide_eq_true_eq] at hel
  exact (hpl i _ (List.getElem?_eq_getElem hlt) x hel).symm

/-- The values of `elementsAtIndex` over all buckets are the chain lengths. -/
theorem elementsAtIndex_range (s : HashSet α) (hlen : s._list.length = s._cap) :
    (List.range s._cap).map (fun i => (s.elementsAtIndex i).getD 0) =
      s._list.map List.length := by
  apply List.ext_getElem
  · simp [hlen]
  · intro i h1 h2
    simp only [List.length_map, List.length_range] at h1 h2
    rcases elementsAtIndex_inbounds s i hlen h1 with ⟨chain, hget, hel⟩
    rw [List.getElem?_eq_getElem h2, Option.some.injEq] at hget
    simp [hel, hget]

/-- C10 (size invariant): after any sequence of `add` calls on a fresh set,
`elementsAtIndex(i)` is defined for every `i`, the sum of `elementsAtIndex(i)`
over `i` in `[0, capacity())` is `size()`, and so is the number of nodes of all
chains together. -/
theorem C10_size_is_node_count [DecidableEq α] (h : α → Nat) (xs : List α) :
    ∃ s, (HashSet.new h).addAll xs = some s ∧
      (∀ i, ∃ n, s.elementsAtIndex i = some n) ∧
      ((List.range s.capacity).map (fun i => (s.elementsAtIndex i).getD 0)).sum = s.size ∧
      (s._list.map List.length).sum = s.size := by
  rcases addAll_new h xs with ⟨s, hs, hinv, _, _⟩
  have hsum : (s._list.map List.length).sum = s._sz := by
    rw [hinv.size, List.length_flatten]
  refine ⟨s, hs, ?_, ?_, hsum⟩
  · intro i
    by_cases hi : i < s._cap
    · rcases elementsAtIndex_inbounds s i hinv.len hi with ⟨chain, _, hel⟩
      exact ⟨_, hel⟩
    · exact ⟨0, elementsAtIndex_outside s i (Nat.le_of_not_lt hi)⟩
  · simp only [HashSet.capacity, HashSet.size, elementsAtIndex_range s hinv.len, hsum]

/-! ## copy and move -/

theorem copyTail_eq (c : List α) : copyTail c = c := by
  induction c with
  | nil => rfl
  | cons v next ih => simp [copyTail, ih]

theorem copyCell_eq (c : List α) : copyCell c = c := by
  cases c with
  | nil => rfl
  | cons v next => simp [copyCell, copyTail_eq]

/-- The loop of `copy_list` fills the cells still to be written, whatever they
held, with the chains of the source. -/
theorem copyLoop_spec (rest : List (List α)) :
    ∀ pre ts : List (List α), ts.length = rest.length →
      copyLoop (pre ++ rest) rest.length pre.length (pre ++ ts) = some (pre ++ rest) := by
  induction rest with
  | nil =>
    intro pre ts hts
    have : ts = [] := List.length_eq_zero.mp hts
    subst this
    simp [copyLoop]
  | cons cur rest ih =>
    intro pre ts hts
    cases ts with
    | nil => simp at hts
    | cons t ts =>
      have hts1 : ts.length = rest.length := by simpa using hts
      have hget : (pre ++ cur :: rest)[pre.length]? = some cur := by
        rw [List.getElem?_append_right (Nat.le_refl _)]
        simp
      have hlt : pre.length < (pre ++ t :: ts).length := by simp
      have hset : (pre ++ t :: ts).set pre.length (copyCell cur) = (pre ++ [cur]) ++ ts := by
        rw [List.set_append_right _ _ (Nat.le_refl _)]
        simp [copyCell_eq]
      have hstep := ih (pre ++ [cur]) ts hts1
      rw [List.append_assoc, List.singleton_append, List.length_append,
        List.length_singleton] at hstep
      simp only [List.length_cons, copyLoop, hget, hlt, if_true, hset]
      rw [hstep]

theorem copy_list_spec (s : HashSet α) (list : List (List α)) (hown : s._list.length = s._cap)
    (hlist : list.length = s._cap) : s.copy_list list = some { s with _list := list } := by
  have h := copyLoop_spec list [] s._list (by rw [hown, hlist])
  simp only [List.nil_append, List.length_nil, hlist] at h
  simp only [HashSet.copy_list, h]

theorem deleteLoop_spec (rest : List (List α)) :
    ∀ pre : List (List α), deleteLoop (pre ++ rest) rest.length pre.length = some () := by
  induction rest with
  | nil => intro pre; rfl
  | cons cur rest ih =>
    intro pre
    have hget : (pre ++ cur :: rest)[pre.length]? = some cur := by
      rw [List.getElem?_append_right (Nat.le_refl _)]
      simp
    have hstep := ih (pre ++ [cur])
    rw [List.append_assoc, List.singleton_append, List.length_append,
      List.length_singleton] at hstep
    simp only [List.length_cons, deleteLoop, hget]
    exact hstep

theorem delete_list_spec (s : HashSet α) (hlen : s._list.length = s._cap) :
    s.delete_list = some () := by
  have h := deleteLoop_spec s._list []
  simp only [List.nil_append, List.length_nil, hlen] at h
  exact h

theorem copyConstruct_spec (s : HashSet α) (hlen : s._list.length = s._cap) :
    s.copyConstruct = some s := by
  simp only [HashSet.copyConstruct]
  exact copy_list_spec
    { hashFunction := s.hashFunction, _sz := s._sz, _cap := s._cap, _list := newArray s._cap }
    s._list (by simp [newArray]) hlen

theorem copyAssign_spec (self s : HashSet α) (hself : self._list.length = self._cap)
    (hlen : s._list.length = s._cap) : self.copyAssign s = some s := by
  simp only [HashSet.copyAssign, delete_list_spec self hself]
  exact copy_list_spec
    { hashFunction := s.hashFunction, _sz := s._sz, _cap := s._cap, _list := newArray s._cap }
    s._list (by simp [newArray]) hlen

/-- One `add` of an element that `contains` does not find, on a set with a
proper array of positive capacity: the size is incremented, the array is resized
when the load test asks for it, and the node is prepended to its chain. -/
theorem add_step_spec [DecidableEq α] (s : HashSet α) (x : α)
    (hlen : s._list.length = s._cap) (hpos : 0 < s._cap) (hc : s.contains x = some false) :
    ∃ s2 head,
      (if 5 * (s._sz + 1) > 4 * s._cap then
          HashSet.resize { s with _sz := s._sz + 1 }
        else some { s with _sz := s._sz + 1 }) = some s2 ∧
      s2._sz = s._sz + 1 ∧
      s2._cap = (if 5 * (s._sz + 1) > 4 * s._cap then s._cap * 2 + 1 else s._cap) ∧
      s2.hashFunction = s.hashFunction ∧
      s2._list[s.hashFunction x % s2._cap]? = some head ∧
      s.add x =
        some { s2 with _list := s2._list.set (s.hashFunction x % s2._cap) (x :: head) } := by
  by_cases hload : 5 * (s._sz + 1) > 4 * s._cap
  · rcases resize_spec { s with _sz := s._sz + 1 } hlen with ⟨newList, hres, hnlen, _, _⟩
    simp only at hnlen
    have hlt : s.hashFunction x % (s._cap * 2 + 1) < newList.length := by
      rw [hnlen]; exact Nat.mod_lt _ (Nat.succ_pos _)
    have hget := List.getElem?_eq_getElem hlt
    refine ⟨HashSet.mk s.hashFunction (s._sz + 1) (s._cap * 2 + 1) newList,
      newList[s.hashFunction x % (s._cap * 2 + 1)], ?_, ?_, ?_, ?_, ?_, ?_⟩
    · simp only [hload, if_true]; exact hres
    · rfl
    · simp only [hload, if_true]
    · rfl
    · exact hget
    · simp only [HashSet.add, hc, hload, if_true, hres, Nat.succ_ne_zero, if_false, hget]
  · have hlt : s.hashFunction x % s._cap < s._list.length := by
      rw [hlen]; exact Nat.mod_lt _ hpos
    have hget := List.getElem?_eq_getElem hlt
    refine ⟨HashSet.mk s.hashFunction (s._sz + 1) s._cap s._list,
      s._list[s.hashFunction x % s._cap], ?_, ?_, ?_, ?_, ?_, ?_⟩
    · simp only [hload, if_false]
    · rfl
    · simp only [hload, if_false]
    · rfl
    · exact hget
    · simp only [HashSet.add, hc, hload, if_false, Nat.pos_iff_ne_zero.mp hpos, hget]

/-! ## The claims, continued -/

/-- C11 (no duplicates): after any sequence of `add` calls on a fresh set, the
nodes of all chains together hold pairwise different elements: the
concatenation of the chains has no repetition, so no chain repeats an element
and two different buckets have no element in common. -/
theorem C11_no_duplicates [DecidableEq α] (h : α → Nat) (xs : List α) :
    ∃ s, (HashSet.new h).addAll xs = some s ∧ s._list.flatten.Nodup ∧
      (∀ (i : Nat) (chain : List α), s._list[i]? = some chain → chain.Nodup) ∧
      (∀ (i j : Nat) (ci cj : List α) (x : α), i ≠ j → s._list[i]? = some ci →
        s._list[j]? = some cj → x ∈ ci → x ∉ cj) := by
  rcases addAll_new h xs with ⟨s, hs, hinv, _, _⟩
  refine ⟨s, hs, hinv.nodup, ?_, ?_⟩
  · intro i chain hget
    rcases List.getElem?_eq_some.mp hget with ⟨hi, hc⟩
    have hmem : chain ∈ s._list := by rw [← hc]; exact List.getElem_mem hi
    exact (List.nodup_flatten.mp hinv.nodup).1 chain hmem
  · intro i j ci cj x hij hi hj hxi hxj
    have h1 := hinv.placed i ci hi x hxi
    have h2 := hinv.placed j cj hj x hxj
    exact hij (h1.symm.trans h2)

/-- C12 (construction): for every hash function the fresh set has `size() == 0`
and `capacity() == 10`, the default capacity; its array has 10 cells, each one
empty, and `elementsAtIndex(i) == 0` for every `i`. -/
theorem C12_construction (h : α → Nat) :
    (HashSet.new h).size = 0 ∧ (HashSet.new h).capacity = 10 ∧
      (DEFAULT_CAPACITY = 10 ∧ (HashSet.new h).hashFunction = h) ∧
      (HashSet.new h)._list.length = 10 ∧
      (∀ i, i < 10 → (HashSet.new h)._list[i]? = some []) ∧
      (∀ i, (HashSet.new h).elementsAtIndex i = some 0) := by
  refine ⟨rfl, rfl, ⟨rfl, rfl⟩, length_null_init _, ?_, ?_⟩
  · intro i hi
    simp only [HashSet.new, null_init_list, DEFAULT_CAPACITY, List.getElem?_replicate, hi,
      if_true]
  · intro i
    by_cases hi : i < 10
    · simp only [HashSet.elementsAtIndex, HashSet.new, null_init_list, DEFAULT_CAPACITY,
        List.getElem?_replicate, hi, if_true, ge_iff_le, Nat.not_le.mpr hi, if_false,
        countChain]
    · exact elementsAtIndex_outside _ i (Nat.le_of_not_lt hi)

/-- C13 (copy): for a source `s` with a proper array, the copy constructor and
the copy assignment into another object `dst` both succeed and produce a set
with the size, the capacity, the hash function and the bucket array of `s`,
chain by chain and in the same order; so `contains`, `elementsAtIndex` and
`isElementAtIndex` answer on the copy as on `s`. -/
theorem C13_copy [DecidableEq α] (dst s : HashSet α) (hdst : dst._list.length = dst._cap)
    (hlen : s._list.length = s._cap) :
    ∃ c, s.copyConstruct = some c ∧ dst.copyAssign s = some c ∧
      c.size = s.size ∧ c.capacity = s.capacity ∧ c.hashFunction = s.hashFunction ∧
      (∀ i : Nat, c._list[i]? = s._list[i]?) ∧
      (∀ x, c.contains x = s.contains x) ∧
      (∀ i, c.elementsAtIndex i = s.elementsAtIndex i) ∧
      (∀ x i, c.isElementAtIndex x i = s.isElementAtIndex x i) :=
  ⟨s, copyConstruct_spec s hlen, copyAssign_spec dst s hdst hlen, rfl, rfl, rfl,
    fun _ => rfl, fun _ => rfl, fun _ => rfl, fun _ _ => rfl⟩

/-- Witness of C13: `sampleTwo` is copied, and assigned to `sampleThree`. -/
theorem C13_copy_witness :
    sampleThree._list.length = sampleThree._cap ∧ sampleTwo._list.length = sampleTwo._cap ∧
    ∃ c, sampleTwo.copyConstruct = some c ∧ sampleThree.copyAssign sampleTwo = some c ∧
      c.size = sampleTwo.size ∧ c.capacity = sampleTwo.capacity ∧
      c.hashFunction = sampleTwo.hashFunction ∧
      (∀ i : Nat, c._list[i]? = sampleTwo._list[i]?) ∧
      (∀ x, c.contains x = sampleTwo.contains x) ∧
      (∀ i, c.elementsAtIndex i = sampleTwo.elementsAtIndex i) ∧
      (∀ x i, c.isElementAtIndex x i = sampleTwo.isElementAtIndex x i) :=
  ⟨rfl, rfl, C13_copy sampleThree sampleTwo rfl rfl⟩

/-- C14 (move validity): the object built by move construction from `s`, and
the object `dst` after the move assignment of `s`, have the size, the capacity,
the hash function and the bucket array that `s` had before the move; so
`contains` answers on them as it did on `s`. -/
theorem C14_move_destination [DecidableEq α] (dst s : HashSet α) :
    s.moveConstruct.1 = s ∧ (dst.moveAssign s).1 = s ∧
      (s.moveConstruct.1.size = s.size ∧ s.moveConstruct.1.capacity = s.capacity ∧
        s.moveConstruct.1.hashFunction = s.hashFunction ∧
        s.moveConstruct.1._list = s._list) ∧
      ((dst.moveAssign s).1.size = s.size ∧ (dst.moveAssign s).1.capacity = s.capacity ∧
        (dst.moveAssign s).1.hashFunction = s.hashFunction ∧
        (dst.moveAssign s).1._list = s._list) ∧
      (∀ x, s.moveConstruct.1.contains x = s.contains x) ∧
      (∀ x, (dst.moveAssign s).1.contains x = s.contains x) :=
  ⟨rfl, rfl, ⟨rfl, rfl, rfl, rfl⟩, ⟨rfl, rfl, rfl, rfl⟩, fun _ => rfl, fun _ => rfl⟩

/-- C15, as stated, fails: after the move assignment of `sampleTwo` into
`sampleThree` the source has capacity 3 and three cells, not capacity 0 and a
null array. -/
theorem C15_counterexample :
    ¬ ((sampleThree.moveAssign sampleTwo).2.capacity = 0 ∧
      (sampleThree.moveAssign sampleTwo).2._list = []) := by
  rintro ⟨hcap, _⟩
  have h3 : (sampleThree.moveAssign sampleTwo).2.capacity = 3 := rfl
  rw [h3] at hcap
  cases hcap

/-- C15 (amended): after the move assignment `dst = std::move(src)` the source
holds the state `dst` had before the assignment: its size, its capacity, its
bucket array and its hash function.  So the source has capacity 0, a null array
and the placeholder hash function when `dst` had them. -/
theorem C15_move_assign_swaps (dst src : HashSet α) :
    (dst.moveAssign src).2 = dst ∧
      (dst.moveAssign src).2.size = dst.size ∧
      (dst.moveAssign src).2.capacity = dst.capacity ∧
      (dst.moveAssign src).2._list = dst._list ∧
      (dst.moveAssign src).2.hashFunction = dst.hashFunction ∧
      (src.moveConstruct.2.moveAssign src).2.capacity = 0 ∧
      (src.moveConstruct.2.moveAssign src).2._list = [] ∧
      (src.moveConstruct.2.moveAssign src).2.hashFunction = HashSet__undefinedHashFunction :=
  ⟨rfl, rfl, rfl, rfl, rfl, rfl, rfl, rfl⟩

/-- C16 (move construction resets the source): after the move construction of a
new set from `src`, `src` has size 0, capacity 0, a null array and the
placeholder hash function, which returns 0 for every element. -/
theorem C16_move_construct_resets (src : HashSet α) :
    src.moveConstruct.2.size = 0 ∧ src.moveConstruct.2.capacity = 0 ∧
      src.moveConstruct.2._list = [] ∧
      src.moveConstruct.2.hashFunction = HashSet__undefinedHashFunction ∧
      (∀ e : α, src.moveConstruct.2.hashFunction e = 0) :=
  ⟨rfl, rfl, rfl, rfl, fun _ => rfl⟩

/-- C18 (resize trigger and growth formula): on a set with a proper array of
capacity `c > 0` and size `s`, for an element `x` that `contains` does not find,
`add(x)` succeeds with size `s + 1`; the capacity after it is `2 * c + 1` exactly
when `5 * (s + 1) > 4 * c` and `c` otherwise; and the new node is the head of the
chain at bucket `h(x) mod` the capacity after the add, in front of the chain that
bucket held once the array had been resized or kept. -/
theorem C18_add_new_element [DecidableEq α] (s : HashSet α) (x : α)
    (hlen : s._list.length = s._cap) (hpos : 0 < s._cap) (hc : s.contains x = some false) :
    ∃ s1, s.add x = some s1 ∧ s1.size = s.size + 1 ∧
      (s1.capacity = 2 * s.capacity + 1 ↔ 5 * (s.size + 1) > 4 * s.capacity) ∧
      (¬ 5 * (s.size + 1) > 4 * s.capacity → s1.capacity = s.capacity) ∧
      ∃ s2 head,
        (if 5 * (s._sz + 1) > 4 * s._cap then
            HashSet.resize { s with _sz := s._sz + 1 }
          else some { s with _sz := s._sz + 1 }) = some s2 ∧
        s2._list[s.hashFunction x % s1.capacity]? = some head ∧
        s1._list = s2._list.set (s.hashFunction x % s1.capacity) (x :: head) ∧
        s1._list[s.hashFunction x % s1.capacity]? = some (x :: head) := by
  rcases add_step_spec s x hlen hpos hc with ⟨s2, head, hgrow, hsz, hcap, _, hget, hadd⟩
  refine ⟨_, hadd, hsz, ?_, ?_, s2, head, hgrow, hget, rfl, ?_⟩
  · simp only [HashSet.capacity, HashSet.size, hcap]
    constructor
    · intro h1
      by_contra hn
      simp only [hn, if_false] at h1
      omega
    · intro h1
      simp only [h1, if_true]
      omega
  · intro hn
    simp only [HashSet.capacity, HashSet.size] at hn
    simp only [HashSet.capacity, hcap, hn, if_false]
  · rcases List.getElem?_eq_some.mp hget with ⟨hlt, _⟩
    exact List.getElem?_set_self hlt

/-- Witness of C18: 7 is added to `sampleThree`, which resizes it to capacity 7. -/
theorem C18_add_new_element_witness :
    sampleThree._list.length = sampleThree._cap ∧ 0 < sampleThree._cap ∧
    sampleThree.contains 7 = some false ∧
    ∃ s1, sampleThree.add 7 = some s1 ∧ s1.size = sampleThree.size + 1 ∧
      (s1.capacity = 2 * sampleThree.capacity + 1 ↔
        5 * (sampleThree.size + 1) > 4 * sampleThree.capacity) ∧
      (¬ 5 * (sampleThree.size + 1) > 4 * sampleThree.capacity →
        s1.capacity = sampleThree.capacity) ∧
      ∃ s2 head,
        (if 5 * (sampleThree._sz + 1) > 4 * sampleThree._cap then
            HashSet.resize { sampleThree with _sz := sampleThree._sz + 1 }
          else some { sampleThree with _sz := sampleThree._sz + 1 }) = some s2 ∧
        s2._list[sampleThree.hashFunction 7 % s1.capacity]? = some head ∧
        s1._list = s2._list.set (sampleThree.hashFunction 7 % s1.capacity) (7 :: head) ∧
        s1._list[sampleThree.hashFunction 7 % s1.capacity]? = some (7 :: head) :=
  ⟨rfl, by decide, by decide, C18_add_new_element sampleThree 7 rfl (by decide) (by decide)⟩

/-- C19 (no false positives): after any sequence `xs` of `add` calls on a fresh
set, `contains(x)` is defined for every `x` and true exactly when `x` is an
element of `xs`; on the fresh set it is false for every `x`; and for an `x` that
was never added `isElementAtIndex(x, i)` is false at every index inside the
capacity. -/
theorem C19_no_false_positives [DecidableEq α] (h : α → Nat) (xs : List α) :
    ∃ s, (HashSet.new h).addAll xs = some s ∧
      (∀ x, s.contains x = some true → x ∈ xs) ∧
      (∀ x, s.contains x = some (decide (x ∈ xs))) ∧
      (∀ x, (HashSet.new h).contains x = some false) ∧
      (∀ x i, x ∉ xs → i < s.capacity → s.isElementAtIndex x i = some false) := by
  rcases addAll_new h xs with ⟨s, hs, hinv, hmem, hcap⟩
  simp only [DEFAULT_CAPACITY] at hcap
  have hc : ∀ x, s.contains x = some (decide (x ∈ xs)) := by
    intro x
    rw [contains_spec s x hinv.len (by omega) hinv.placed]
    simp only [hmem x]
  refine ⟨s, hs, ?_, hc, ?_, ?_⟩
  · intro x hx
    rw [hc x] at hx
    simpa using hx
  · intro x
    have hn := inv_new h
    rw [contains_spec (HashSet.new h) x hn.len (Nat.succ_pos 9) hn.placed]
    simp [HashSet.new, flatten_null_init]
  · intro x i hx hi
    have hlt : i < s._list.length := by rw [hinv.len]; exact hi
    rw [isElementAtIndex_inbounds s x i hlt]
    have hnot : x ∉ s._list[i] := fun hin =>
      hx ((hmem x).mp (List.mem_flatten.mpr ⟨_, List.getElem_mem hlt, hin⟩))
    simp [hnot]

/-- C20 (index safety): after any sequence of `add` calls on a fresh set the
capacity is at least 10 and the array has that many cells, so for every element
the index `h(x) mod capacity()` is defined and inside the array; `contains`,
`add` and the `resize` of a pending insertion all return a result; and further
`add` calls never decrease the capacity. -/
theorem C20_index_safety [DecidableEq α] (h : α → Nat) (xs ys : List α) :
    ∃ s s2, (HashSet.new h).addAll xs = some s ∧
      10 ≤ s.capacity ∧ 0 < s.capacity ∧ s._list.length = s.capacity ∧
      (∀ x, h x % s.capacity < s._list.length) ∧
      (∀ x, ∃ b, s.contains x = some b) ∧
      (∀ x, ∃ s1, s.add x = some s1 ∧ s.capacity ≤ s1.capacity) ∧
      (∃ r, HashSet.resize { s with _sz := s._sz + 1 } = some r ∧
        r.capacity = s.capacity * 2 + 1 ∧ r._list.length = r.capacity) ∧
      s.addAll ys = some s2 ∧ s.capacity ≤ s2.capacity := by
  rcases addAll_new h xs with ⟨s, hs, hinv, _, hcap⟩
  rcases addAll_spec h ys s hinv with ⟨s2, hs2, _, _, hle⟩
  simp only [DEFAULT_CAPACITY] at hcap
  have hpos : 0 < s._cap := by omega
  refine ⟨s, s2, hs, hcap, hpos, hinv.len, ?_, ?_, ?_, ?_, hs2, hle⟩
  · intro x
    rw [hinv.len]
    exact Nat.mod_lt _ hpos
  · intro x
    exact ⟨_, contains_spec s x hinv.len hpos hinv.placed⟩
  · intro x
    rcases addAll_spec h [x] s hinv with ⟨s1, hs1, _, _, hle1⟩
    refine ⟨s1, ?_, hle1⟩
    simp only [HashSet.addAll] at hs1
    cases hadd : s.add x with
    | none => simp [hadd] at hs1
    | some t => simpa [hadd] using hs1
  · rcases resize_spec { s with _sz := s._sz + 1 } hinv.len with ⟨newList, hres, hnlen, _, _⟩
    exact ⟨_, hres, rfl, hnlen⟩

/-! ## The free store: chains and frames -/

namespace Heap

theorem chain_mono (m : Memory α) (P Q : Nat → Prop) (hPQ : ∀ a, P a → Q a) (l : List α) :
    ∀ p, Chain m P p l → Chain m Q p l := by
  induction l with
  | nil => intro p h; exact h
  | cons v t ih =>
    rintro p ⟨a, nd, hp, hPa, hnd, hv, ht⟩
    exact ⟨a, nd, hp, hPQ a hPa, hnd, hv, ih _ ht⟩

/-- A chain is still there in a store that kept its live nodes. -/
theorem chain_frame (m m1 : Memory α) (P : Nat → Prop)
    (hsame : ∀ a nd, P a → m.nodes a = some nd → m1.nodes a = some nd) (l : List α) :
    ∀ p, Chain m P p l → Chain m1 P p l := by
  induction l with
  | nil => intro p h; exact h
  | cons v t ih =>
    rintro p ⟨a, nd, hp, hPa, hnd, hv, ht⟩
    exact ⟨a, nd, hp, hPa, hsame a nd hPa hnd, hv, ih _ ht⟩

/-- The nodes of a chain are live, so their addresses are below `brk`. -/
theorem chain_below (m : Memory α) (hwf : WF m) (P : Nat → Prop) (l : List α) :
    ∀ p, Chain m P p l → Chain m (fun a => P a ∧ a < m.brk) p l := by
  induction l with
  | nil => intro p h; exact h
  | cons v t ih =>
    rintro p ⟨a, nd, hp, hPa, hnd, hv, ht⟩
    refine ⟨a, nd, hp, ⟨hPa, ?_⟩, hnd, hv, ih _ ht⟩
    by_contra hge
    have := (hwf a (Nat.le_of_not_lt hge)).1
    rw [hnd] at this
    cases this

theorem cells_mono (m : Memory α) (P Q : Nat → Prop) (hPQ : ∀ a, P a → Q a)
    (ps : List (Option Nat)) (L : List (List α)) (h : Cells m P ps L) : Cells m Q ps L :=
  ⟨h.1, fun i p l hp hl => chain_mono m P Q hPQ l p (h.2 i p l hp hl)⟩

theorem cells_frame (m m1 : Memory α) (P : Nat → Prop)
    (hsame : ∀ a nd, P a → m.nodes a = some nd → m1.nodes a = some nd)
    (ps : List (Option Nat)) (L : List (List α)) (h : Cells m P ps L) : Cells m1 P ps L :=
  ⟨h.1, fun i p l hp hl => chain_frame m m1 P hsame l p (h.2 i p l hp hl)⟩

theorem cells_below (m : Memory α) (hwf : WF m) (P : Nat → Prop)
    (ps : List (Option Nat)) (L : List (List α)) (h : Cells m P ps L) :
    Cells m (fun a => P a ∧ a < m.brk) ps L :=
  ⟨h.1, fun i p l hp hl => chain_below m hwf P l p (h.2 i p l hp hl)⟩

/-- An object is still represented in a store that kept its live nodes and its
live array. -/
theorem repr_frame (m m1 : Memory α) (P : Nat → Prop) (s : HashSet α) (L : List (List α))
    (hn : ∀ a nd, P a → m.nodes a = some nd → m1.nodes a = some nd)
    (ha : ∀ a ps, P a → m.arrays a = some ps → m1.arrays a = some ps)
    (h : Repr m P s L) : Repr m1 P s L := by
  rcases h with ⟨a, ps, hl, hPa, harr, hlen, hcells⟩
  exact ⟨a, ps, hl, hPa, ha a ps hPa harr, hlen, cells_frame m m1 P hn ps L hcells⟩

theorem repr_below (m : Memory α) (hwf : WF m) (P : Nat → Prop) (s : HashSet α)
    (L : List (List α)) (h : Repr m P s L) : Repr m (fun a => P a ∧ a < m.brk) s L := by
  rcases h with ⟨a, ps, hl, hPa, harr, hlen, hcells⟩
  refine ⟨a, ps, hl, ⟨hPa, ?_⟩, harr, hlen, cells_below m hwf P ps L hcells⟩
  by_contra hge
  have := (hwf a (Nat.le_of_not_lt hge)).2
  rw [harr] at this
  cases this

theorem repr_mono (m : Memory α) (P Q : Nat → Prop) (hPQ : ∀ a, P a → Q a) (s : HashSet α)
    (L : List (List α)) (h : Repr m P s L) : Repr m Q s L := by
  rcases h with ⟨a, ps, hl, hPa, harr, hlen, hcells⟩
  exact ⟨a, ps, hl, hPQ a hPa, harr, hlen, cells_mono m P Q hPQ ps L hcells⟩

/-! ## The free store: contains -/

/-- On a chain the scanning loop computes what `scanChain` computes on its values. -/
theorem scanFrom_mem [DecidableEq α] (m : Memory α) (P : Nat → Prop) (element : α)
    (l : List α) :
    ∀ p fuel, Chain m P p l → l.length < fuel →
      scanFrom m element fuel p = some (scanChain element l) := by
  induction l with
  | nil =>
    intro p fuel h _
    simp only [Chain] at h
    subst h
    cases fuel <;> rfl
  | cons v t ih =>
    rintro p fuel ⟨a, nd, hp, _, hnd, hv, ht⟩ hfuel
    subst hp
    cases fuel with
    | zero => simp at hfuel
    | succ fuel =>
      have hlt : t.length < fuel := by simpa using hfuel
      simp only [scanFrom, hnd, hv, scanChain]
      by_cases hve : v = element
      · simp only [hve, if_true]
      · simp only [hve, if_false]
        exact ih nd.next fuel ht hlt

/-- On a represented object `contains` answers as the member over values does. -/
theorem contains_repr [DecidableEq α] (m : Memory α) (P : Nat → Prop) (s : HashSet α)
    (L : List (List α)) (fuel : Nat) (h : Repr m P s L)
    (hfuel : L.flatten.length < fuel) (element : α) :
    s.contains fuel m element =
      HashSetHpp.HashSet.contains
        { hashFunction := s.hashFunction, _sz := s._sz, _cap := s._cap, _list := L } element := by
  rcases h with ⟨a, ps, hl, _, harr, hlen, hcells⟩
  by_cases hcap : s._cap = 0
  · simp only [HashSet.contains, HashSetHpp.HashSet.contains, hcap, if_true]
  · have hlt : s.hashFunction element % s._cap < ps.length := by
      rw [hlen]; exact Nat.mod_lt _ (Nat.pos_of_ne_zero hcap)
    have hltL : s.hashFunction element % s._cap < L.length := by
      rw [← hcells.1]; exact hlt
    have hch := hcells.2 _ _ _ (List.getElem?_eq_getElem hlt) (List.getElem?_eq_getElem hltL)
    have hlen2 : (L[s.hashFunction element % s._cap]).length < fuel := by
      refine Nat.lt_of_le_of_lt ?_ hfuel
      rw [List.length_flatten]
      exact List.single_le_sum (by simp) _
        (List.mem_map.mpr ⟨_, List.getElem_mem hltL, rfl⟩)
    simp only [HashSet.contains, HashSetHpp.HashSet.contains, hcap, if_false,
      HashSet.isElementAtIndex, HashSetHpp.HashSet.isElementAtIndex, Memory.readCell, hl, harr,
      List.getElem?_eq_getElem hlt, List.getElem?_eq_getElem hltL]
    exact scanFrom_mem m P element _ _ fuel hch hlen2

theorem chain_none (m : Memory α) (P : Nat → Prop) (l : List α) (h : Chain m P none l) :
    l = [] := by
  cases l with
  | nil => rfl
  | cons v t =>
    rcases h with ⟨a, nd, hp, _⟩
    cases hp

theorem length_le_flatten (L : List (List α)) (i : Nat) (l : List α) (h : L[i]? = some l) :
    l.length ≤ L.flatten.length := by
  rw [List.length_flatten]
  exact List.single_le_sum (by simp) _ (List.mem_map.mpr ⟨l, List.getElem?_mem h, rfl⟩)

theorem readCell_eq (m : Memory α) (a i : Nat) (cs : List (Option Nat)) (p : Option Nat)
    (ha : m.arrays a = some cs) (hp : cs[i]? = some p) : m.readCell (some a) i = some p := by
  simp only [Memory.readCell, ha, hp]

theorem writeCell_eq (m : Memory α) (a i : Nat) (cs : List (Option Nat)) (p : Option Nat)
    (ha : m.arrays a = some cs) (hi : i < cs.length) :
    m.writeCell (some a) i p =
      some (Memory.mk m.nodes (Function.update m.arrays a (some (cs.set i p))) m.brk) := by
  simp only [Memory.writeCell, ha, hi, if_true]

theorem newNode_fst (m : Memory α) (nd : Node α) : (m.newNode nd).1 = m.brk := rfl

theorem newArray_fst (m : Memory α) (n : Nat) : (m.newArray n).1 = m.brk := rfl

theorem live_node_lt (m : Memory α) (hwf : WF m) (a : Nat) (nd : Node α)
    (h : m.nodes a = some nd) : a < m.brk := by
  by_contra hge
  have := (hwf a (Nat.le_of_not_lt hge)).1
  rw [h] at this
  cases this

theorem live_array_lt (m : Memory α) (hwf : WF m) (a : Nat) (cs : List (Option Nat))
    (h : m.arrays a = some cs) : a < m.brk := by
  by_contra hge
  have := (hwf a (Nat.le_of_not_lt hge)).2
  rw [h] at this
  cases this

/-! ## The free store: the copy constructor -/

/-- The inner loop of `copy_list`: behind the fresh node `n`, which holds `v0`,
it links fresh copies of the rest of the source chain; nothing else changes. -/
theorem copyTail_mem (B : Nat) (rest : List α) :
    ∀ (m : Memory α) (cur : Option Nat) (n : Nat) (v0 : α) (fuel : Nat),
      WF m → Chain m (fun a => a < B) cur rest →
      m.nodes n = some { value := v0, next := none } → B ≤ n → rest.length < fuel →
      ∃ m1, copyTail fuel cur n m = some m1 ∧ WF m1 ∧ m.brk ≤ m1.brk ∧
        m1.arrays = m.arrays ∧
        (∀ a, a < m.brk → a ≠ n → m1.nodes a = m.nodes a) ∧
        Chain m1 (fun a => B ≤ a) (some n) (v0 :: rest) := by
  induction rest with
  | nil =>
    intro m cur n v0 fuel hwf hch hn hB _
    simp only [Chain] at hch
    subst hch
    refine ⟨m, ?_, hwf, Nat.le_refl _, rfl, fun _ _ _ => rfl, ?_⟩
    · cases fuel <;> rfl
    · exact ⟨n, _, rfl, hB, hn, rfl, rfl⟩
  | cons w rest ih =>
    rintro m cur n v0 fuel hwf ⟨a, nd, hp, haB, hnd, hv, ht⟩ hn hB hfuel
    subst hp
    cases fuel with
    | zero => simp at hfuel
    | succ fuel =>
      have hlt : rest.length < fuel := by simpa using hfuel
      have hnlt : n < m.brk := by
        by_contra hge
        have := (hwf n (Nat.le_of_not_lt hge)).1
        rw [hn] at this
        cases this
      have hnq : n ≠ m.brk := Nat.ne_of_lt hnlt
      have han : a ≠ n := by omega
      have haq : a ≠ m.brk := by omega
      -- the store after `newNode->next = new Node{curNode->value, nullptr}`
      have hw : (m.newNode { value := nd.value, next := none }).2.writeNext n
          (some (m.newNode { value := nd.value, next := none }).1) =
          some (Memory.mk
            (Function.update
              (Function.update m.nodes m.brk (some { value := nd.value, next := none })) n
              (some { value := v0, next := some m.brk }))
            m.arrays (m.brk + 1)) := by
        simp only [Memory.writeNext, Memory.newNode, Function.update_noteq hnq, hn]
      have hwf2 : WF (Memory.mk
            (Function.update
              (Function.update m.nodes m.brk (some { value := nd.value, next := none })) n
              (some { value := v0, next := some m.brk }))
            m.arrays (m.brk + 1)) := by
        intro b hb
        simp only at hb
        have hbn : b ≠ n := by omega
        have hbq : b ≠ m.brk := by omega
        simp only [Function.update_noteq hbn, Function.update_noteq hbq]
        exact hwf b (by omega)
      rcases ih _ nd.next m.brk w fuel hwf2
          (chain_frame m _ _ (by
            intro b nb hb hnb
            have hbn : b ≠ n := by omega
            have hbq : b ≠ m.brk := by omega
            simp only [Function.update_noteq hbn, Function.update_noteq hbq]
            exact hnb) rest _ ht)
          (by simp only [Function.update_noteq hnq.symm, Function.update_same, hv])
          (by omega) hlt with ⟨m1, hrun, hwf1, hbrk, harr, hfr, hch⟩
      refine ⟨m1, ?_, hwf1, ?_, ?_, ?_, ?_⟩
      · simp only [copyTail, hnd, hw, Function.update_noteq han, Function.update_noteq haq]
        exact hrun
      · simp only at hbrk; omega
      · rw [harr]
      · intro b hb hbn
        have hbq : b ≠ m.brk := by omega
        rw [hfr b (by simp only; omega) hbq]
        simp only [Function.update_noteq hbn, Function.update_noteq hbq]
      · refine ⟨n, { value := v0, next := some m.brk }, rfl, hB, ?_, rfl, hch⟩
        rw [hfr n (by simp only; omega) hnq]
        simp only [Function.update_same]

/-- The loop of `copy_list`: with `i` cells already copied and `n` to go, it
fills the own array `oa` with fresh copies of the chains of the source array
`sa`; nothing below `B`, where the source lives, changes. -/
theorem copyLoop_mem (B sa oa fuel : Nat) (sps : List (Option Nat)) (L : List (List α))
    (hsa : sa < B) (hoa : B ≤ oa) (hfuel : L.flatten.length < fuel) :
    ∀ (n i : Nat) (m : Memory α) (ops : List (Option Nat)),
      i + n = sps.length → WF m → m.arrays sa = some sps → Cells m (fun a => a < B) sps L →
      m.arrays oa = some ops → ops.length = sps.length →
      (∀ (j : Nat) (p : Option Nat) (l : List α), j < i → ops[j]? = some p → L[j]? = some l →
        Chain m (fun a => B ≤ a) p l) →
      ∃ m1 ops1, copyLoop fuel (some oa) (some sa) n i m = some m1 ∧ WF m1 ∧
        m.brk ≤ m1.brk ∧
        (∀ a, a < B → m1.nodes a = m.nodes a ∧ m1.arrays a = m.arrays a) ∧
        m1.arrays oa = some ops1 ∧ ops1.length = sps.length ∧
        (∀ (j : Nat) (p : Option Nat) (l : List α), j < i + n → ops1[j]? = some p →
          L[j]? = some l → Chain m1 (fun a => B ≤ a) p l) := by
  intro n
  induction n with
  | zero =>
    intro i m ops _ hwf _ _ hops hlen hdone
    exact ⟨m, ops, rfl, hwf, Nat.le_refl _, fun _ _ => ⟨rfl, rfl⟩, hops, hlen, hdone⟩
  | succ n ih =>
    intro i m ops hin hwf hsps hsrc hops hlen hdone
    have hi : i < sps.length := by omega
    have hiL : i < L.length := by rw [← hsrc.1]; exact hi
    have hio : i < ops.length := by omega
    have hoalt : oa < m.brk := live_array_lt m hwf oa ops hops
    have hsao : sa ≠ oa := by omega
    have hcur := hsrc.2 i _ _ (List.getElem?_eq_getElem hi) (List.getElem?_eq_getElem hiL)
    have hread := readCell_eq m sa i sps _ hsps (List.getElem?_eq_getElem hi)
    cases hp : sps[i] with
    | none =>
      rw [hp] at hcur hread
      have hl : L[i] = [] := chain_none m _ _ hcur
      have hw := writeCell_eq m oa i ops none hops hio
      have hwf1 : WF (Memory.mk m.nodes
          (Function.update m.arrays oa (some (ops.set i none))) m.brk) := by
        intro b hb
        have hbo : b ≠ oa := by simp only at hb; omega
        simp only [Function.update_noteq hbo]
        exact hwf b hb
      rcases ih (i + 1) _ (ops.set i none) (by omega) hwf1
          (by simp only [Function.update_noteq hsao]; exact hsps)
          (cells_frame m (Memory.mk m.nodes (Function.update m.arrays oa (some (ops.set i none))) m.brk) _ (fun _ _ _ h => h) sps L hsrc)
          (by simp only [Function.update_same])
          (by rw [List.length_set]; exact hlen)
          (by
            intro j p l hj hjp hjl
            by_cases hji : j = i
            · subst hji
              rw [List.getElem?_set_self hio] at hjp
              rw [List.getElem?_eq_getElem hiL, hl] at hjl
              cases hjp; cases hjl
              rfl
            · rw [List.getElem?_set_ne (fun h => hji h.symm)] at hjp
              exact chain_frame m (Memory.mk m.nodes (Function.update m.arrays oa (some (ops.set i none))) m.brk) _ (fun _ _ _ h => h) l p
                (hdone j p l (by omega) hjp hjl))
        with ⟨m1, ops1, hrun, hwfr, hbrk, hfr, hops1, hlen1, hall⟩
      refine ⟨m1, ops1, ?_, hwfr, hbrk, ?_, hops1, hlen1, ?_⟩
      · simp only [copyLoop, hread, hw]
        exact hrun
      · intro b hb
        have hbo : b ≠ oa := by omega
        rcases hfr b hb with ⟨h1, h2⟩
        refine ⟨h1, ?_⟩
        rw [h2]
        simp only [Function.update_noteq hbo]
      · intro j p l hj
        exact hall j p l (by omega)
    | some a =>
      rw [hp] at hcur hread
      cases hLi : L[i] with
      | nil =>
        rw [hLi] at hcur
        simp only [Chain] at hcur
        cases hcur
      | cons v t =>
        rw [hLi] at hcur
        rcases hcur with ⟨a1, nd, hpa, haB, hnd, hv, ht⟩
        cases hpa
        have halt : a < m.brk := live_node_lt m hwf a nd hnd
        have haq : a ≠ m.brk := Nat.ne_of_lt halt
        have htlen : t.length < fuel := by
          have := length_le_flatten L i (v :: t)
            (by rw [List.getElem?_eq_getElem hiL, hLi])
          simp only [List.length_cons] at this
          omega
        -- the store after `_list[i] = newNode`
        have hw : (m.newNode { value := nd.value, next := none }).2.writeCell (some oa) i
            (some m.brk) =
            some (Memory.mk
              (Function.update m.nodes m.brk (some { value := nd.value, next := none }))
              (Function.update m.arrays oa (some (ops.set i (some m.brk)))) (m.brk + 1)) := by
          simp only [Memory.writeCell, Memory.newNode, hops, hio, if_true]
        have hwf2 : WF (Memory.mk
              (Function.update m.nodes m.brk (some { value := nd.value, next := none }))
              (Function.update m.arrays oa (some (ops.set i (some m.brk)))) (m.brk + 1)) := by
          intro b hb
          simp only at hb
          have hbq : b ≠ m.brk := by omega
          have hbo : b ≠ oa := by omega
          simp only [Function.update_noteq hbq, Function.update_noteq hbo]
          exact hwf b (by omega)
        rcases copyTail_mem B t _ nd.next m.brk v fuel hwf2
            (chain_frame m (Memory.mk
              (Function.update m.nodes m.brk (some { value := nd.value, next := none }))
              (Function.update m.arrays oa (some (ops.set i (some m.brk)))) (m.brk + 1)) _ (by
              intro b nb _ hnb
              have hbq : b ≠ m.brk := Nat.ne_of_lt (live_node_lt m hwf b nb hnb)
              simp only [Function.update_noteq hbq]
              exact hnb) t _ ht)
            (by simp only [Function.update_same, hv])
            (by omega) htlen with ⟨m3, hrun3, hwf3, hbrk3, harr3, hfr3, hch3⟩
        simp only at hbrk3 hfr3 harr3
        have hkeep : ∀ b nb, m.nodes b = some nb → m3.nodes b = some nb := by
          intro b nb hnb
          have hblt := live_node_lt m hwf b nb hnb
          have hbq : b ≠ m.brk := Nat.ne_of_lt hblt
          rw [hfr3 b (by omega) hbq]
          simp only [Function.update_noteq hbq]
          exact hnb
        rcases ih (i + 1) m3 (ops.set i (some m.brk)) (by omega) hwf3
            (by rw [harr3]; simp only [Function.update_noteq hsao]; exact hsps)
            (cells_frame m m3 _ (fun b nb _ h => hkeep b nb h) sps L hsrc)
            (by rw [harr3]; simp only [Function.update_same])
            (by rw [List.length_set]; exact hlen)
            (by
              intro j p l hj hjp hjl
              by_cases hji : j = i
              · subst hji
                rw [List.getElem?_set_self hio] at hjp
                rw [List.getElem?_eq_getElem hiL, hLi] at hjl
                cases hjp; cases hjl
                exact hch3
              · rw [List.getElem?_set_ne (fun h => hji h.symm)] at hjp
                exact chain_frame m m3 _ (fun b nb _ h => hkeep b nb h) l p
                  (hdone j p l (by omega) hjp hjl))
          with ⟨m1, ops1, hrun, hwfr, hbrk, hfr, hops1, hlen1, hall⟩
        refine ⟨m1, ops1, ?_, hwfr, by omega, ?_, hops1, hlen1, ?_⟩
        · simp only [copyLoop, hread, hnd, newNode_fst, hw, Function.update_noteq haq, hrun3]
          exact hrun
        · intro b hb
          have hbo : b ≠ oa := by omega
          have hbq : b ≠ m.brk := by omega
          rcases hfr b hb with ⟨h1, h2⟩
          constructor
          · rw [h1, hfr3 b (by omega) hbq]
            simp only [Function.update_noteq hbq]
          · rw [h2, harr3]
            simp only [Function.update_noteq hbo]
        · intro j p l hj
          exact hall j p l (by omega)

/-- The copy constructor gives a set that holds the chains of the source in
fresh nodes and a fresh array; no address that was live before changes. -/
theorem copyConstruct_mem (m : Memory α) (s : HashSet α) (L : List (List α)) (fuel : Nat)
    (hwf : WF m) (hrepr : Repr m (fun _ => True) s L) (hfuel : L.flatten.length < fuel) :
    ∃ m1, s.copyConstruct fuel m =
        some (m1, HashSet.mk s.hashFunction s._sz s._cap (some m.brk)) ∧
      WF m1 ∧ m.brk ≤ m1.brk ∧
      (∀ a, a < m.brk → m1.nodes a = m.nodes a ∧ m1.arrays a = m.arrays a) ∧
      Repr m1 (fun a => m.brk ≤ a)
        (HashSet.mk s.hashFunction s._sz s._cap (some m.brk)) L := by
  rcases repr_below m hwf _ s L hrepr with ⟨sa, sps, hl, ⟨_, hsa⟩, harr, hlen, hcells⟩
  have hsab : sa ≠ m.brk := Nat.ne_of_lt hsa
  have hwf0 : WF (m.newArray s._cap).2 := by
    intro b hb
    simp only [Memory.newArray] at hb ⊢
    have hbq : b ≠ m.brk := by omega
    simp only [Function.update_noteq hbq]
    exact hwf b (by omega)
  rcases copyLoop_mem m.brk sa m.brk fuel sps L hsa (Nat.le_refl _) hfuel s._cap 0
      (m.newArray s._cap).2 (List.replicate s._cap none) (by omega) hwf0
      (by simp only [Memory.newArray, Function.update_noteq hsab]; exact harr)
      (cells_mono _ _ _ (fun _ h => h.2) sps L
        (cells_frame m (m.newArray s._cap).2 _ (fun _ _ _ h => h) sps L hcells))
      (by simp only [Memory.newArray, Function.update_same])
      (by simp only [List.length_replicate, hlen])
      (fun j p l hj => absurd hj (Nat.not_lt_zero j))
    with ⟨m1, ops1, hrun, hwf1, hbrk, hfr, hops1, hlen1, hall⟩
  refine ⟨m1, ?_, hwf1, ?_, ?_, ?_⟩
  · simp only [HashSet.copyConstruct, HashSet.copy_list, newArray_fst, hl, hrun]
  · simp only [Memory.newArray] at hbrk; omega
  · intro b hb
    have hbq : b ≠ m.brk := Nat.ne_of_lt hb
    rcases hfr b hb with ⟨h1, h2⟩
    constructor
    · rw [h1]; rfl
    · rw [h2]; simp only [Memory.newArray, Function.update_noteq hbq]
  · refine ⟨m.brk, ops1, rfl, Nat.le_refl _, hops1, by rw [hlen1, hlen], ?_, ?_⟩
    · rw [hlen1, hcells.1]
    · intro j p l hjp hjl
      have hj : j < ops1.length := (List.getElem?_eq_some.mp hjp).1
      exact hall j p l (by omega) hjp hjl

/-! ## The free store: resize and add -/

/-- A chain is still there in a store that kept the live nodes holding its values. -/
theorem chain_frame_val (m m1 : Memory α) (P : Nat → Prop) (l : List α) :
    ∀ p, (∀ a nd, P a → m.nodes a = some nd → nd.value ∈ l → m1.nodes a = some nd) →
      Chain m P p l → Chain m1 P p l := by
  induction l with
  | nil => intro p _ h; exact h
  | cons v t ih =>
    rintro p hsame ⟨a, nd, hp, hPa, hnd, hv, ht⟩
    refine ⟨a, nd, hp, hPa, hsame a nd hPa hnd (by rw [hv]; exact List.mem_cons_self _ _), hv, ?_⟩
    exact ih _ (fun b nb hb hnb hin => hsame b nb hb hnb (List.mem_cons_of_mem _ hin)) ht

/-- The inner loop of `resize`: every node of the old chain gets a fresh copy at
the head of its chain in the new array `na`; nothing below `B` changes. -/
theorem resizeChain_mem (h : α → Nat) (newCap B na : Nat) (hB : B ≤ na) (hpos : 0 < newCap)
    (l : List α) :
    ∀ (m : Memory α) (cur : Option Nat) (nps : List (Option Nat)) (NL : List (List α))
      (fuel : Nat),
      WF m → Chain m (fun a => a < B) cur l → m.arrays na = some nps → nps.length = newCap →
      Cells m (fun a => B ≤ a) nps NL → l.length < fuel →
      ∃ m1 nps1 NL1, resizeChain h newCap (some na) fuel cur m = some m1 ∧ WF m1 ∧
        m.brk ≤ m1.brk ∧
        (∀ a, a < B → m1.nodes a = m.nodes a ∧ m1.arrays a = m.arrays a) ∧
        m1.arrays na = some nps1 ∧ nps1.length = newCap ∧
        Cells m1 (fun a => B ≤ a) nps1 NL1 := by
  induction l with
  | nil =>
    intro m cur nps NL fuel hwf hch harr hlen hcells _
    simp only [Chain] at hch
    subst hch
    refine ⟨m, nps, NL, ?_, hwf, Nat.le_refl _, fun _ _ => ⟨rfl, rfl⟩, harr, hlen, hcells⟩
    cases fuel <;> rfl
  | cons v t ih =>
    rintro m cur nps NL fuel hwf ⟨a, nd, hp, haB, hnd, hv, ht⟩ harr hlen hcells hfuel
    subst hp
    cases fuel with
    | zero => simp at hfuel
    | succ fuel =>
      have hlt : t.length < fuel := by simpa using hfuel
      have hnalt : na < m.brk := live_array_lt m hwf na nps harr
      have haq : a ≠ m.brk := by omega
      have hidx : h nd.value % newCap < nps.length := by
        rw [hlen]; exact Nat.mod_lt _ hpos
      have hidxL : h nd.value % newCap < NL.length := by rw [← hcells.1]; exact hidx
      have hread := readCell_eq m na _ nps _ harr (List.getElem?_eq_getElem hidx)
      have hw : (m.newNode { value := nd.value, next := nps[h nd.value % newCap] }).2.writeCell
          (some na) (h nd.value % newCap) (some m.brk) =
          some (Memory.mk
            (Function.update m.nodes m.brk
              (some { value := nd.value, next := nps[h nd.value % newCap] }))
            (Function.update m.arrays na (some (nps.set (h nd.value % newCap) (some m.brk))))
            (m.brk + 1)) := by
        simp only [Memory.writeCell, Memory.newNode, harr, hidx, if_true]
      have hkeep : ∀ b nb, m.nodes b = some nb →
          Function.update m.nodes m.brk
            (some { value := nd.value, next := nps[h nd.value % newCap] }) b = some nb := by
        intro b nb hnb
        have hbq : b ≠ m.brk := Nat.ne_of_lt (live_node_lt m hwf b nb hnb)
        simp only [Function.update_noteq hbq]
        exact hnb
      have hwf2 : WF (Memory.mk
            (Function.update m.nodes m.brk
              (some { value := nd.value, next := nps[h nd.value % newCap] }))
            (Function.update m.arrays na (some (nps.set (h nd.value % newCap) (some m.brk))))
            (m.brk + 1)) := by
        intro b hb
        simp only at hb
        have hbq : b ≠ m.brk := by omega
        have hbo : b ≠ na := by omega
        simp only [Function.update_noteq hbq, Function.update_noteq hbo]
        exact hwf b (by omega)
      rcases ih _ nd.next (nps.set (h nd.value % newCap) (some m.brk))
          (NL.set (h nd.value % newCap) (nd.value :: NL[h nd.value % newCap])) fuel hwf2
          (chain_frame m (Memory.mk
            (Function.update m.nodes m.brk
              (some { value := nd.value, next := nps[h nd.value % newCap] }))
            (Function.update m.arrays na (some (nps.set (h nd.value % newCap) (some m.brk))))
            (m.brk + 1)) _ (fun b nb _ hnb => hkeep b nb hnb) t _ ht)
          (by simp only [Function.update_same])
          (by rw [List.length_set]; exact hlen)
          (by
            refine ⟨by rw [List.length_set, List.length_set]; exact hcells.1, ?_⟩
            intro j p l1 hjp hjl
            by_cases hji : j = h nd.value % newCap
            · subst hji
              rw [List.getElem?_set_self hidx] at hjp
              rw [List.getElem?_set_self hidxL] at hjl
              cases hjp; cases hjl
              refine ⟨m.brk, Node.mk nd.value nps[h nd.value % newCap], rfl, by omega, ?_,
                rfl, ?_⟩
              · simp only [Function.update_same]
              · exact chain_frame m _ _ (fun b nb _ hnb => hkeep b nb hnb) _ _
                  (hcells.2 _ _ _ (List.getElem?_eq_getElem hidx)
                    (List.getElem?_eq_getElem hidxL))
            · rw [List.getElem?_set_ne (fun h1 => hji h1.symm)] at hjp hjl
              exact chain_frame m _ _ (fun b nb _ hnb => hkeep b nb hnb) _ _
                (hcells.2 j p l1 hjp hjl))
          hlt with ⟨m1, nps1, NL1, hrun, hwf1, hbrk, hfr, harr1, hlen1, hcells1⟩
      refine ⟨m1, nps1, NL1, ?_, hwf1, ?_, ?_, harr1, hlen1, hcells1⟩
      · simp only [resizeChain, hnd, Nat.pos_iff_ne_zero.mp hpos, if_false, hread, newNode_fst,
          hw, Function.update_noteq haq]
        exact hrun
      · simp only at hbrk; omega
      · intro b hb
        have hbq : b ≠ m.brk := by omega
        have hbo : b ≠ na := by omega
        rcases hfr b hb with ⟨h1, h2⟩
        constructor
        · rw [h1]; simp only [Function.update_noteq hbq]
        · rw [h2]; simp only [Function.update_noteq hbo]

/-- The outer loop of `resize`: the chains of the old array `oa` are rehashed
into the new array `na`; nothing below `B` changes. -/
theorem resizeLoop_mem (h : α → Nat) (newCap B oa na fuel : Nat) (ops : List (Option Nat))
    (L : List (List α)) (hoa : oa < B) (hB : B ≤ na) (hpos : 0 < newCap)
    (hfuel : L.flatten.length < fuel) :
    ∀ (n i : Nat) (m : Memory α) (nps : List (Option Nat)) (NL : List (List α)),
      i + n = ops.length → WF m → m.arrays oa = some ops → Cells m (fun a => a < B) ops L →
      m.arrays na = some nps → nps.length = newCap → Cells m (fun a => B ≤ a) nps NL →
      ∃ m1 nps1 NL1, resizeLoop fuel h (some oa) newCap (some na) n i m = some m1 ∧ WF m1 ∧
        m.brk ≤ m1.brk ∧
        (∀ a, a < B → m1.nodes a = m.nodes a ∧ m1.arrays a = m.arrays a) ∧
        m1.arrays na = some nps1 ∧ nps1.length = newCap ∧
        Cells m1 (fun a => B ≤ a) nps1 NL1 := by
  intro n
  induction n with
  | zero =>
    intro i m nps NL _ hwf _ _ harr hlen hcells
    exact ⟨m, nps, NL, rfl, hwf, Nat.le_refl _, fun _ _ => ⟨rfl, rfl⟩, harr, hlen, hcells⟩
  | succ n ih =>
    intro i m nps NL hin hwf hops hold harr hlen hcells
    have hi : i < ops.length := by omega
    have hiL : i < L.length := by rw [← hold.1]; exact hi
    have hcur := hold.2 i _ _ (List.getElem?_eq_getElem hi) (List.getElem?_eq_getElem hiL)
    have hread := readCell_eq m oa i ops _ hops (List.getElem?_eq_getElem hi)
    have hlfuel : (L[i]).length < fuel :=
      Nat.lt_of_le_of_lt (length_le_flatten L i _ (List.getElem?_eq_getElem hiL)) hfuel
    rcases resizeChain_mem h newCap B na hB hpos (L[i]) m (ops[i]) nps NL fuel hwf hcur harr hlen
        hcells hlfuel with ⟨m1, nps1, NL1, hrun1, hwf1, hbrk1, hfr1, harr1, hlen1, hcells1⟩
    rcases ih (i + 1) m1 nps1 NL1 (by omega) hwf1
        (by rw [(hfr1 oa hoa).2]; exact hops)
        (cells_frame m m1 _ (fun b nb hb hnb => by rw [(hfr1 b hb).1]; exact hnb) ops L hold)
        harr1 hlen1 hcells1 with ⟨m2, nps2, NL2, hrun2, hwf2, hbrk2, hfr2, harr2, hlen2, hcells2⟩
    refine ⟨m2, nps2, NL2, ?_, hwf2, by omega, ?_, harr2, hlen2, hcells2⟩
    · simp only [resizeLoop, hread, hrun1]
      exact hrun2
    · intro b hb
      rcases hfr1 b hb with ⟨h1, h2⟩
      rcases hfr2 b hb with ⟨h3, h4⟩
      exact ⟨h3.trans h1, h4.trans h2⟩

/-- The inner loop of `delete_list`: it releases the nodes of one chain, which
hold different values, and no other node. -/
theorem deleteChain_mem (P : Nat → Prop) (l : List α) :
    ∀ (m : Memory α) (p : Option Nat) (fuel : Nat),
      WF m → Chain m P p l → l.Nodup → l.length < fuel →
      ∃ m1, deleteChain fuel p m = some m1 ∧ WF m1 ∧ m1.brk = m.brk ∧
        m1.arrays = m.arrays ∧
        (∀ b, (¬ P b ∨ ∀ nb, m.nodes b = some nb → nb.value ∉ l) →
          m1.nodes b = m.nodes b) := by
  induction l with
  | nil =>
    intro m p fuel hwf hch _ _
    simp only [Chain] at hch
    subst hch
    refine ⟨m, ?_, hwf, rfl, rfl, fun _ _ => rfl⟩
    cases fuel <;> rfl
  | cons v t ih =>
    rintro m p fuel hwf ⟨a, nd, hp, hPa, hnd, hv, ht⟩ hnodup hfuel
    subst hp
    cases fuel with
    | zero => simp at hfuel
    | succ fuel =>
      have hlt : t.length < fuel := by simpa using hfuel
      have hvt : v ∉ t := (List.nodup_cons.mp hnodup).1
      have hdel : m.deleteNode a =
          some (Memory.mk (Function.update m.nodes a none) m.arrays m.brk) := by
        simp only [Memory.deleteNode, hnd]
      have hwf1 : WF (Memory.mk (Function.update m.nodes a none) m.arrays m.brk) := by
        intro b hb
        simp only at hb
        refine ⟨?_, (hwf b hb).2⟩
        by_cases hba : b = a
        · subst hba; simp only [Function.update_same]
        · simp only [Function.update_noteq hba]; exact (hwf b hb).1
      rcases ih (Memory.mk (Function.update m.nodes a none) m.arrays m.brk) nd.next fuel hwf1
          (chain_frame_val m _ P t _ (by
            intro b nb _ hnb hin
            have hba : b ≠ a := by
              intro hba
              subst hba
              rw [hnd] at hnb
              cases hnb
              exact hvt (hv ▸ hin)
            simp only [Function.update_noteq hba]
            exact hnb) ht)
          (List.nodup_cons.mp hnodup).2 hlt with ⟨m1, hrun, hwfr, hbrk, harr, hfr⟩
      refine ⟨m1, ?_, hwfr, hbrk, harr, ?_⟩
      · simp only [deleteChain, hnd, hdel]
        exact hrun
      · intro b hb
        have hba : b ≠ a := by
          intro hba
          subst hba
          rcases hb with hb | hb
          · exact hb hPa
          · exact hb nd hnd (by rw [hv]; exact List.mem_cons_self _ _)
        have hstep : (Function.update m.nodes a none) b = m.nodes b := by
          simp only [Function.update_noteq hba]
        rw [hfr b (by
          rcases hb with hb | hb
          · exact Or.inl hb
          · right
            intro nb hnb
            simp only [hstep] at hnb
            exact fun hin => hb nb hnb (List.mem_cons_of_mem _ hin))]
        exact hstep

theorem flatten_nodup_disjoint (L : List (List α)) (hnd : L.flatten.Nodup) (i j : Nat)
    (li lj : List α) (hi : L[i]? = some li) (hj : L[j]? = some lj) (hij : i ≠ j) (x : α)
    (hx : x ∈ li) : x ∉ lj := by
  have hp := (List.nodup_flatten.mp hnd).2
  rw [List.pairwise_iff_getElem] at hp
  rcases List.getElem?_eq_some.mp hi with ⟨hi1, hi2⟩
  rcases List.getElem?_eq_some.mp hj with ⟨hj1, hj2⟩
  rcases Nat.lt_or_gt_of_ne hij with hlt | hgt
  · have hd := hp i j hi1 hj1 hlt
    rw [hi2, hj2] at hd
    exact fun hxj => hd hx hxj
  · have hd := hp j i hj1 hi1 hgt
    rw [hi2, hj2] at hd
    exact fun hxj => hd hxj hx

/-- The outer loop of `delete_list`: it releases the nodes of the chains from
cell `i` on, and no node outside `P`. -/
theorem deleteLoop_mem (P : Nat → Prop) (oa fuel : Nat) (ops : List (Option Nat))
    (L : List (List α)) (hlen : ops.length = L.length) (hnd : L.flatten.Nodup)
    (hfuel : L.flatten.length < fuel) :
    ∀ (n i : Nat) (m : Memory α),
      i + n = ops.length → WF m → m.arrays oa = some ops →
      (∀ (j : Nat) (p : Option Nat) (l : List α), i ≤ j → ops[j]? = some p → L[j]? = some l →
        Chain m P p l) →
      ∃ m1, deleteLoop fuel (some oa) n i m = some m1 ∧ WF m1 ∧ m1.brk = m.brk ∧
        m1.arrays = m.arrays ∧ (∀ b, ¬ P b → m1.nodes b = m.nodes b) := by
  intro n
  induction n with
  | zero =>
    intro i m _ hwf _ _
    exact ⟨m, rfl, hwf, rfl, rfl, fun _ _ => rfl⟩
  | succ n ih =>
    intro i m hin hwf hops hrest
    have hi : i < ops.length := by omega
    have hiL : i < L.length := by rw [← hlen]; exact hi
    have hgi := List.getElem?_eq_getElem hi
    have hgL := List.getElem?_eq_getElem hiL
    have hcur := hrest i _ _ (Nat.le_refl _) hgi hgL
    have hread := readCell_eq m oa i ops _ hops hgi
    have hlnd : (L[i]).Nodup := (List.nodup_flatten.mp hnd).1 _ (List.getElem_mem hiL)
    have hlfuel : (L[i]).length < fuel :=
      Nat.lt_of_le_of_lt (length_le_flatten L i _ hgL) hfuel
    rcases deleteChain_mem P (L[i]) m (ops[i]) fuel hwf hcur hlnd hlfuel with
      ⟨m1, hrun1, hwf1, hbrk1, harr1, hfr1⟩
    rcases ih (i + 1) m1 (by omega) hwf1 (by rw [harr1]; exact hops) (by
        intro j p l hj hjp hjl
        refine chain_frame_val m m1 P l p ?_ (hrest j p l (by omega) hjp hjl)
        intro b nb _ hnb hin
        rw [hfr1 b (Or.inr (fun nb1 hnb1 => by
          rw [hnb] at hnb1
          cases hnb1
          exact flatten_nodup_disjoint L hnd j i l _ hjl hgL (by omega) _ hin))]
        exact hnb) with ⟨m2, hrun2, hwf2, hbrk2, harr2, hfr2⟩
    refine ⟨m2, ?_, hwf2, by rw [hbrk2, hbrk1], by rw [harr2, harr1], ?_⟩
    · simp only [deleteLoop, hread, hrun1]
      exact hrun2
    · intro b hb
      rw [hfr2 b hb, hfr1 b (Or.inl hb)]

/-- The member `delete_list` releases the nodes and the array of the object and
nothing outside `P`. -/
theorem delete_list_mem (m : Memory α) (P : Nat → Prop) (s : HashSet α) (L : List (List α))
    (fuel : Nat) (hwf : WF m) (hrepr : Repr m P s L) (hnd : L.flatten.Nodup)
    (hfuel : L.flatten.length < fuel) :
    ∃ m1, s.delete_list fuel m = some m1 ∧ WF m1 ∧ m1.brk = m.brk ∧
      (∀ b, ¬ P b → m1.nodes b = m.nodes b ∧ m1.arrays b = m.arrays b) := by
  rcases hrepr with ⟨oa, ops, hl, hPa, harr, hlen, hcells⟩
  rcases deleteLoop_mem P oa fuel ops L hcells.1 hnd hfuel s._cap 0 m (by omega) hwf harr
      (fun j p l _ hjp hjl => hcells.2 j p l hjp hjl) with ⟨m1, hrun, hwf1, hbrk, harr1, hfr⟩
  have hdel : m1.deleteArray oa =
      some (Memory.mk m1.nodes (Function.update m1.arrays oa none) m1.brk) := by
    simp only [Memory.deleteArray, harr1, harr]
  refine ⟨Memory.mk m1.nodes (Function.update m1.arrays oa none) m1.brk, ?_, ?_, hbrk, ?_⟩
  · simp only [HashSet.delete_list, hrun, hl, hdel]
  · intro b hb
    simp only at hb
    refine ⟨(hwf1 b hb).1, ?_⟩
    by_cases hba : b = oa
    · subst hba; simp only [Function.update_same]
    · simp only [Function.update_noteq hba]; exact (hwf1 b hb).2
  · intro b hb
    have hba : b ≠ oa := fun hba => hb (hba ▸ hPa)
    refine ⟨hfr b hb, ?_⟩
    simp only [Function.update_noteq hba, harr1]

theorem cells_replicate (m : Memory α) (P : Nat → Prop) (n : Nat) :
    Cells m P (List.replicate n none) (List.replicate n ([] : List α)) := by
  refine ⟨by simp, ?_⟩
  intro i p l hp hl
  rw [List.getElem?_replicate] at hp hl
  by_cases hi : i < n
  · rw [if_pos hi] at hp hl
    cases hp; cases hl
    rfl
  · rw [if_neg hi] at hp
    cases hp

/-- The member `resize` builds the new array and its chains at fresh addresses
and releases only nodes and the array of the object itself. -/
theorem resize_mem (m : Memory α) (P : Nat → Prop) (s : HashSet α) (L : List (List α))
    (fuel : Nat) (hwf : WF m) (hrepr : Repr m P s L) (hnd : L.flatten.Nodup)
    (hfuel : L.flatten.length < fuel) :
    ∃ m2 NL, s.resize fuel m =
        some (m2, HashSet.mk s.hashFunction s._sz (s._cap * 2 + 1) (some m.brk)) ∧
      WF m2 ∧ m.brk ≤ m2.brk ∧
      (∀ b, b < m.brk → ¬ P b → m2.nodes b = m.nodes b ∧ m2.arrays b = m.arrays b) ∧
      Repr m2 (fun a => m.brk ≤ a)
        (HashSet.mk s.hashFunction s._sz (s._cap * 2 + 1) (some m.brk)) NL := by
  rcases repr_below m hwf P s L hrepr with ⟨oa, ops, hl, ⟨hPa, hoa⟩, harr, hlen, hcells⟩
  have hoab : oa ≠ m.brk := Nat.ne_of_lt hoa
  have hwf0 : WF (m.newArray (s._cap * 2 + 1)).2 := by
    intro b hb
    simp only [Memory.newArray] at hb ⊢
    have hbq : b ≠ m.brk := by omega
    simp only [Function.update_noteq hbq]
    exact hwf b (by omega)
  have harr0 : (m.newArray (s._cap * 2 + 1)).2.arrays oa = some ops := by
    simp only [Memory.newArray, Function.update_noteq hoab]; exact harr
  have hcells0 : Cells (m.newArray (s._cap * 2 + 1)).2 (fun a => P a ∧ a < m.brk) ops L :=
    cells_frame m (m.newArray (s._cap * 2 + 1)).2 _ (fun _ _ _ h => h) ops L hcells
  rcases resizeLoop_mem s.hashFunction (s._cap * 2 + 1) m.brk oa m.brk fuel ops L hoa
      (Nat.le_refl _) (Nat.succ_pos _) hfuel s._cap 0 (m.newArray (s._cap * 2 + 1)).2
      (List.replicate (s._cap * 2 + 1) none) (List.replicate (s._cap * 2 + 1) [])
      (by omega) hwf0 harr0 (cells_mono _ _ _ (fun _ h => h.2) ops L hcells0)
      (by simp only [Memory.newArray, Function.update_same])
      (List.length_replicate _ _) (cells_replicate _ _ _)
    with ⟨m1, nps1, NL1, hrun1, hwf1, hbrk1, hfr1, harr1, hlen1, hcells1⟩
  have hrepr1 : Repr m1 (fun a => P a ∧ a < m.brk) s L := by
    refine ⟨oa, ops, hl, ⟨hPa, hoa⟩, by rw [(hfr1 oa hoa).2]; exact harr0, hlen, ?_⟩
    exact cells_frame _ m1 _ (fun b nb hb hnb => by rw [(hfr1 b hb.2).1]; exact hnb) ops L
      hcells0
  rcases delete_list_mem m1 _ s L fuel hwf1 hrepr1 hnd hfuel with ⟨m2, hrun2, hwf2, hbrk2, hfr2⟩
  have hnew : ∀ b, m.brk ≤ b → ¬ (P b ∧ b < m.brk) := fun b hb hc => by omega
  refine ⟨m2, NL1, ?_, hwf2, ?_, ?_, ?_⟩
  · simp only [HashSet.resize, newArray_fst, hl, hrun1, hrun2]
  · simp only [Memory.newArray] at hbrk1; omega
  · intro b hb hPb
    have hbq : b ≠ m.brk := Nat.ne_of_lt hb
    rcases hfr2 b (fun hc => hPb hc.1) with ⟨h1, h2⟩
    rcases hfr1 b hb with ⟨h3, h4⟩
    constructor
    · rw [h1, h3]; rfl
    · rw [h2, h4]; simp only [Memory.newArray, Function.update_noteq hbq]
  · refine ⟨m.brk, nps1, rfl, Nat.le_refl _, ?_, hlen1, ?_⟩
    · rw [(hfr2 m.brk (hnew _ (Nat.le_refl _))).2]; exact harr1
    · exact cells_frame m1 m2 _
        (fun b nb hb hnb => by rw [(hfr2 b (hnew b hb)).1]; exact hnb) nps1 NL1 hcells1

/-- The last statements of `add`: a fresh node becomes the head of the chain of
its bucket; no other live address changes but the array of the object. -/
theorem prepend_mem (m : Memory α) (Q : Nat → Prop) (s : HashSet α) (L : List (List α))
    (x : α) (hwf : WF m) (hrepr : Repr m Q s L) (hpos : 0 < s._cap) :
    ∃ m3 L3,
      (if s._cap = 0 then none
        else
          match m.readCell s._list (s.hashFunction x % s._cap) with
          | none => none
          | some head =>
            match (m.newNode { value := x, next := head }).2.writeCell s._list
                (s.hashFunction x % s._cap)
                (some (m.newNode { value := x, next := head }).1) with
            | none => none
            | some m3 => some (m3, s)) = some (m3, s) ∧
      WF m3 ∧ m.brk ≤ m3.brk ∧
      (∀ b, b < m.brk → ¬ Q b → m3.nodes b = m.nodes b ∧ m3.arrays b = m.arrays b) ∧
      Repr m3 (fun a => Q a ∨ m.brk ≤ a) s L3 := by
  rcases hrepr with ⟨oa, ops, hl, hQa, harr, hlen, hcells⟩
  have hoalt : oa < m.brk := live_array_lt m hwf oa ops harr
  have hidx : s.hashFunction x % s._cap < ops.length := by
    rw [hlen]; exact Nat.mod_lt _ hpos
  have hidxL : s.hashFunction x % s._cap < L.length := by rw [← hcells.1]; exact hidx
  have hread := readCell_eq m oa _ ops _ harr (List.getElem?_eq_getElem hidx)
  have hw : (m.newNode { value := x, next := ops[s.hashFunction x % s._cap] }).2.writeCell
      (some oa) (s.hashFunction x % s._cap) (some m.brk) =
      some (Memory.mk
        (Function.update m.nodes m.brk
          (some { value := x, next := ops[s.hashFunction x % s._cap] }))
        (Function.update m.arrays oa (some (ops.set (s.hashFunction x % s._cap) (some m.brk))))
        (m.brk + 1)) := by
    simp only [Memory.writeCell, Memory.newNode, harr, hidx, if_true]
  have hkeep : ∀ b nb, m.nodes b = some nb →
      Function.update m.nodes m.brk
        (some { value := x, next := ops[s.hashFunction x % s._cap] }) b = some nb := by
    intro b nb hnb
    have hbq : b ≠ m.brk := Nat.ne_of_lt (live_node_lt m hwf b nb hnb)
    simp only [Function.update_noteq hbq]
    exact hnb
  refine ⟨Memory.mk
        (Function.update m.nodes m.brk
          (some { value := x, next := ops[s.hashFunction x % s._cap] }))
        (Function.update m.arrays oa (some (ops.set (s.hashFunction x % s._cap) (some m.brk))))
        (m.brk + 1),
      L.set (s.hashFunction x % s._cap) (x :: L[s.hashFunction x % s._cap]), ?_, ?_, ?_, ?_, ?_⟩
  · simp only [Nat.pos_iff_ne_zero.mp hpos, if_false, hl, hread, newNode_fst, hw]
  · intro b hb
    simp only at hb
    have hbq : b ≠ m.brk := by omega
    have hbo : b ≠ oa := by omega
    simp only [Function.update_noteq hbq, Function.update_noteq hbo]
    exact hwf b (by omega)
  · simp only; omega
  · intro b hb hQb
    have hbq : b ≠ m.brk := Nat.ne_of_lt hb
    have hbo : b ≠ oa := fun hbo => hQb (hbo ▸ hQa)
    simp only [Function.update_noteq hbq, Function.update_noteq hbo, and_self]
  · refine ⟨oa, ops.set (s.hashFunction x % s._cap) (some m.brk), hl, Or.inl hQa,
      by simp only [Function.update_same], by rw [List.length_set]; exact hlen, ?_, ?_⟩
    · rw [List.length_set, List.length_set]; exact hcells.1
    · intro j p l1 hjp hjl
      by_cases hji : j = s.hashFunction x % s._cap
      · subst hji
        rw [List.getElem?_set_self hidx] at hjp
        rw [List.getElem?_set_self hidxL] at hjl
        cases hjp; cases hjl
        refine ⟨m.brk, Node.mk x ops[s.hashFunction x % s._cap], rfl,
          Or.inr (Nat.le_refl _), ?_, rfl, ?_⟩
        · simp only [Function.update_same]
        · exact chain_mono _ Q _ (fun _ h => Or.inl h) _ _
            (chain_frame m _ _ (fun b nb _ hnb => hkeep b nb hnb) _ _
              (hcells.2 _ _ _ (List.getElem?_eq_getElem hidx)
                (List.getElem?_eq_getElem hidxL)))
      · rw [List.getElem?_set_ne (fun h1 => hji h1.symm)] at hjp hjl
        exact chain_mono _ Q _ (fun _ h => Or.inl h) _ _
          (chain_frame m _ _ (fun b nb _ hnb => hkeep b nb hnb) _ _ (hcells.2 j p l1 hjp hjl))

theorem contains_defined [DecidableEq α] (m : Memory α) (P : Nat → Prop) (s : HashSet α)
    (L : List (List α)) (fuel : Nat) (h : Repr m P s L) (hpos : 0 < s._cap)
    (hfuel : L.flatten.length < fuel) (x : α) : ∃ b, s.contains fuel m x = some b := by
  rw [contains_repr m P s L fuel h hfuel x]
  rcases h with ⟨a, ps, _, _, _, hlen, hcells⟩
  have hlt : s.hashFunction x % s._cap < L.length := by
    rw [← hcells.1, hlen]; exact Nat.mod_lt _ hpos
  simp only [HashSetHpp.HashSet.contains, Nat.pos_iff_ne_zero.mp hpos, if_false]
  exact ⟨_, HashSetHpp.isElementAtIndex_inbounds
    (HashSetHpp.HashSet.mk s.hashFunction s._sz s._cap L) x _ hlt⟩

/-- The member `add` on a represented set returns, changes no live address
outside the set, and leaves a represented set. -/
theorem add_mem [DecidableEq α] (m : Memory α) (P : Nat → Prop) (s : HashSet α)
    (L : List (List α)) (fuel : Nat) (x : α) (hwf : WF m) (hrepr : Repr m P s L)
    (hpos : 0 < s._cap) (hnd : L.flatten.Nodup) (hfuel : L.flatten.length < fuel) :
    ∃ m1 s1 L1, s.add fuel m x = some (m1, s1) ∧ WF m1 ∧ m.brk ≤ m1.brk ∧
      (∀ b, b < m.brk → ¬ P b → m1.nodes b = m.nodes b ∧ m1.arrays b = m.arrays b) ∧
      Repr m1 (fun a => P a ∨ m.brk ≤ a) s1 L1 := by
  rcases contains_defined m P s L fuel hrepr hpos hfuel x with ⟨b, hc⟩
  cases b with
  | true =>
    refine ⟨m, s, L, ?_, hwf, Nat.le_refl _, fun _ _ _ => ⟨rfl, rfl⟩,
      repr_mono m P _ (fun _ h => Or.inl h) s L hrepr⟩
    simp only [HashSet.add, hc]
  | false =>
    by_cases hload : 5 * (s._sz + 1) > 4 * s._cap
    · rcases resize_mem m P { s with _sz := s._sz + 1 } L fuel hwf hrepr hnd hfuel with
        ⟨m2, NL, hres, hwf2, hbrk2, hfr2, hrepr2⟩
      rcases prepend_mem m2 (fun a => m.brk ≤ a)
          (HashSet.mk s.hashFunction (s._sz + 1) (s._cap * 2 + 1) (some m.brk)) NL x hwf2 hrepr2
          (Nat.succ_pos _) with
        ⟨m3, L3, heq, hwf3, hbrk3, hfr3, hrepr3⟩
      refine ⟨m3, HashSet.mk s.hashFunction (s._sz + 1) (s._cap * 2 + 1) (some m.brk), L3,
        ?_, hwf3, by omega, ?_, ?_⟩
      · simp only [HashSet.add, hc, hload, if_true, hres]
        exact heq
      · intro b hb hPb
        rcases hfr3 b (by omega) (fun hge : m.brk ≤ b => by omega) with ⟨h1, h2⟩
        rcases hfr2 b hb hPb with ⟨h3, h4⟩
        exact ⟨h1.trans h3, h2.trans h4⟩
      · exact repr_mono m3 _ _ (fun a ha => by
          rcases ha with ha | ha
          · exact Or.inr ha
          · exact Or.inr (by omega)) _ L3 hrepr3
    · rcases prepend_mem m P { s with _sz := s._sz + 1 } L x hwf hrepr hpos with
        ⟨m3, L3, heq, hwf3, hbrk3, hfr3, hrepr3⟩
      refine ⟨m3, HashSet.mk s.hashFunction (s._sz + 1) s._cap s._list, L3, ?_, hwf3, hbrk3,
        hfr3, hrepr3⟩
      simp only [HashSet.add, hc, hload, if_false]
      exact heq

theorem wf_sampleMemory : WF sampleMemory := by
  intro a ha
  simp only [sampleMemory] at ha ⊢
  have h0 : a ≠ 0 := by omega
  have h1 : a ≠ 1 := by omega
  have h2 : a ≠ 2 := by omega
  have h3 : a ≠ 3 := by omega
  simp only [h0, h1, h2, h3, if_false, and_self]

theorem repr_sampleSet : Repr sampleMemory (fun _ => True) sampleSet [[4, 2], [1]] := by
  refine ⟨0, [some 1, some 3], rfl, trivial, rfl, rfl, rfl, ?_⟩
  intro i p l hp hl
  rcases i with _ | _ | i
  · cases hp; cases hl
    exact ⟨1, Node.mk 4 (some 2), rfl, trivial, rfl, rfl,
      2, Node.mk 2 none, rfl, trivial, rfl, rfl, rfl⟩
  · cases hp; cases hl
    exact ⟨3, Node.mk 1 none, rfl, trivial, rfl, rfl, rfl⟩
  · cases hp

end Heap

/-- C17 (copy independence), over the explicit free store: let `s` be a set
whose array and chains are live in the store `m`, with positive capacity and
pairwise different elements, and let the loops have fuel for all its nodes.
Then the copy constructor returns a copy `c`; `contains` answers alike on `s`
before the copy, on `s` after it and on `c`; `add(x)` on `c` returns and leaves
`contains(y)` on `s` unchanged for every `y`; and `add(x)` on `s` returns and
leaves `contains(y)` on `c` unchanged for every `y`.  The size of a set is its
own member `_sz`, which a call on the other object does not receive. -/
theorem C17_copy_independence [DecidableEq α] (m : Heap.Memory α) (s : Heap.HashSet α)
    (L : List (List α)) (fuel : Nat) (x : α) (hwf : Heap.WF m)
    (hrepr : Heap.Repr m (fun _ => True) s L) (hpos : 0 < s._cap) (hnd : L.flatten.Nodup)
    (hfuel : L.flatten.length < fuel) :
    ∃ m1 c, s.copyConstruct fuel m = some (m1, c) ∧ c.size = s.size ∧
      (∀ y, ∃ b, s.contains fuel m y = some b ∧ s.contains fuel m1 y = some b ∧
        c.contains fuel m1 y = some b) ∧
      (∃ m2 c2, c.add fuel m1 x = some (m2, c2) ∧
        ∀ y, s.contains fuel m2 y = s.contains fuel m1 y) ∧
      (∃ m3 s3, s.add fuel m1 x = some (m3, s3) ∧
        ∀ y, c.contains fuel m3 y = c.contains fuel m1 y) := by
  rcases Heap.copyConstruct_mem m s L fuel hwf hrepr hfuel with
    ⟨m1, hcopy, hwf1, hbrk1, hfr1, hreprc⟩
  have hreprs0 : Heap.Repr m (fun a => a < m.brk) s L :=
    Heap.repr_mono m _ _ (fun _ h => h.2) s L (Heap.repr_below m hwf _ s L hrepr)
  have hreprs1 : Heap.Repr m1 (fun a => a < m.brk) s L :=
    Heap.repr_frame m m1 _ s L
      (fun a nd ha hnd1 => by rw [(hfr1 a ha).1]; exact hnd1)
      (fun a ps ha hps => by rw [(hfr1 a ha).2]; exact hps) hreprs0
  have hreprc1 : Heap.Repr m1 (fun a => m.brk ≤ a ∧ a < m1.brk)
      (Heap.HashSet.mk s.hashFunction s._sz s._cap (some m.brk)) L :=
    Heap.repr_below m1 hwf1 _ _ L hreprc
  refine ⟨m1, Heap.HashSet.mk s.hashFunction s._sz s._cap (some m.brk), hcopy, rfl, ?_, ?_, ?_⟩
  · intro y
    rcases Heap.contains_defined m _ s L fuel hrepr hpos hfuel y with ⟨b, hb⟩
    refine ⟨b, hb, ?_, ?_⟩
    · rw [Heap.contains_repr m1 _ s L fuel hreprs1 hfuel y,
        ← Heap.contains_repr m _ s L fuel hrepr hfuel y]
      exact hb
    · rw [Heap.contains_repr m1 _ _ L fuel hreprc hfuel y]
      rw [Heap.contains_repr m _ s L fuel hrepr hfuel y] at hb
      exact hb
  · rcases Heap.add_mem m1 _ _ L fuel x hwf1 hreprc hpos hnd hfuel with
      ⟨m2, c2, L2, hadd, _, _, hfr2, _⟩
    refine ⟨m2, c2, hadd, ?_⟩
    intro y
    have hreprs2 : Heap.Repr m2 (fun a => a < m.brk) s L :=
      Heap.repr_frame m1 m2 _ s L
        (fun a nd ha hnd1 => by
          rw [(hfr2 a (by omega) (fun hge : m.brk ≤ a => by omega)).1]; exact hnd1)
        (fun a ps ha hps => by
          rw [(hfr2 a (by omega) (fun hge : m.brk ≤ a => by omega)).2]; exact hps) hreprs1
    rw [Heap.contains_repr m2 _ s L fuel hreprs2 hfuel y,
      Heap.contains_repr m1 _ s L fuel hreprs1 hfuel y]
  · rcases Heap.add_mem m1 _ s L fuel x hwf1 hreprs1 hpos hnd hfuel with
      ⟨m3, s3, L3, hadd, _, _, hfr3, _⟩
    refine ⟨m3, s3, hadd, ?_⟩
    intro y
    have hreprc3 : Heap.Repr m3 (fun a => m.brk ≤ a ∧ a < m1.brk)
        (Heap.HashSet.mk s.hashFunction s._sz s._cap (some m.brk)) L :=
      Heap.repr_frame m1 m3 _ _ L
        (fun a nd ha hnd1 => by
          rw [(hfr3 a ha.2 (fun hlt : a < m.brk => by omega)).1]; exact hnd1)
        (fun a ps ha hps => by
          rw [(hfr3 a ha.2 (fun hlt : a < m.brk => by omega)).2]; exact hps) hreprc1
    rw [Heap.contains_repr m3 _ _ L fuel hreprc3 hfuel y,
      Heap.contains_repr m1 _ _ L fuel hreprc1 hfuel y]

/-- Witness of C17: the set of `sampleMemory`, which holds 4, 2 and 1 in two
buckets, is copied and 7 is added, which resizes the set that receives it. -/
theorem C17_copy_independence_witness :
    Heap.WF Heap.sampleMemory ∧
    Heap.Repr Heap.sampleMemory (fun _ => True) Heap.sampleSet [[4, 2], [1]] ∧
    0 < Heap.sampleSet._cap ∧ [[4, 2], [1]].flatten.Nodup ∧ [[4, 2], [1]].flatten.length < 4 ∧
    ∃ m1 c, Heap.sampleSet.copyConstruct 4 Heap.sampleMemory = some (m1, c) ∧
      c.size = Heap.sampleSet.size ∧
      (∀ y, ∃ b, Heap.sampleSet.contains 4 Heap.sampleMemory y = some b ∧
        Heap.sampleSet.contains 4 m1 y = some b ∧ c.contains 4 m1 y = some b) ∧
      (∃ m2 c2, c.add 4 m1 7 = some (m2, c2) ∧
        ∀ y, Heap.sampleSet.contains 4 m2 y = Heap.sampleSet.contains 4 m1 y) ∧
      (∃ m3 s3, Heap.sampleSet.add 4 m1 7 = some (m3, s3) ∧
        ∀ y, c.contains 4 m3 y = c.contains 4 m1 y) :=
  ⟨Heap.wf_sampleMemory, Heap.repr_sampleSet, by decide, by decide, by decide,
    C17_copy_independence Heap.sampleMemory Heap.sampleSet [[4, 2], [1]] 4 7
      Heap.wf_sampleMemory Heap.repr_sampleSet (by decide) (by decide) (by decide)⟩

end HashSetHpp
